import Mathlib

/-!
Verification development for the tinygrad scheduler
(`src/tinygrad/engine/schedule.py`).

The Python source is shallowly embedded: pure functions become Lean
functions, the mutable `ScheduleContext` dictionaries become association
lists threaded through the functions, Python dicts (insertion ordered)
become lists of pairs, and the BFS toposort over kernels becomes an
explicit fueled recursion.  Machine integers of the source are modelled
with `Nat`/`Int` (no overflow is relevant to the scheduler).  External
dependencies of the scheduler that are not part of this repository's
`src/` tree (`ShapeTracker` internals, `identity_element`, `UOp`
utility methods) are modelled from the specification and marked as such
in their doc comments.
-/

/-- Opcode enumeration.  Only the opcodes the scheduler manipulates are
included (the real `Ops` enum is larger; extra members are irrelevant to
the rewrite rules embedded here). -/
inductive Ops where
  | DEVICE | BUFFER | VIEW | CONST | BIND | DEFINE_VAR | DEFINE_GLOBAL
  | LOAD | PRELOAD | STORE | SINK | ASSIGN | CONTIGUOUS | DETACH | COPY
  | BUFFER_VIEW | REDUCE_AXIS | CAST | BITCAST
  | ADD | MUL | MAX | SUB | CMPLT
deriving DecidableEq, Repr

/-- Scalar base dtype: an identifier plus the dtype's minimum value
(used by `identity_element` for `MAX` reduces). -/
structure DTypeBase where
  id : Nat
  minVal : Int
deriving DecidableEq, Repr

/-- A dtype is a base scalar type, possibly wrapped as an image dtype
(the scheduler only ever asks for `.base`). -/
structure DType where
  base : DTypeBase
  isImage : Bool
deriving DecidableEq, Repr

/-- The base (non-image) dtype, as `dtype.base` in the source. -/
def DType.baseDT (d : DType) : DType := ⟨d.base, false⟩

/-- A single view of a shape tracker: shape, strides, offset and an
optional mask, as in `tinygrad/shape/view.py` (a black-box dependency of
the scheduler; only these fields are ever read by the scheduler). -/
structure View where
  shape : List Nat
  strides : List Int
  offset : Int
  mask : Option (List (Nat × Nat))
deriving DecidableEq, Repr

/-- A `ShapeTracker` is a stack of views (black-box dependency; the
scheduler reads `views`, `shape`, `contiguous`, and calls `from_shape`
and `shrink`). -/
structure ShapeTracker where
  views : List View
deriving DecidableEq, Repr

instance : Inhabited ShapeTracker := ⟨⟨[]⟩⟩

/-- Modelled from the spec: `ShapeTracker.shape` is the shape of the
last (outermost) view (§3 lists `shape` among the black-box methods). -/
def ShapeTracker.shape (s : ShapeTracker) : List Nat :=
  (s.views.getLast?.map View.shape).getD []

/-- Modelled from the spec: the semantic `ShapeTracker` operations the
scheduler treats as a black box (§3, §6 "Opaque dependencies"):
the `contiguous` predicate, `ShapeTracker.from_shape`, and `shrink`.
The claims proved below hold for every implementation of these
operations; witnesses instantiate them with a trivial executable one. -/
structure STFuns where
  contiguous : ShapeTracker → Bool
  fromShape : List Nat → ShapeTracker
  shrink : ShapeTracker → List (Nat × Nat) → ShapeTracker

/-- A trivial executable instance of the black-box `ShapeTracker`
operations, used to evaluate concrete witnesses. -/
def stFunsTrivial : STFuns where
  contiguous := fun _ => true
  fromShape := fun s => ⟨[⟨s, [], 0, none⟩]⟩
  shrink := fun st _ => st

/-- An instance whose `contiguous` is always false and whose `shrink`
ignores its tracker, used to exercise the error paths concretely. -/
def stFunsStrict : STFuns where
  contiguous := fun _ => false
  fromShape := fun s => ⟨[⟨s, [], 0, none⟩]⟩
  shrink := fun _ m => ⟨[⟨m.map (fun p => p.2 - p.1), [], 0, none⟩]⟩

/-- Argument payload of a UOp, a tagged union depending on the opcode:
`const` for `CONST`, `idx` for `DEFINE_GLOBAL`, `bufArg` for `BUFFER`
(`(buffer_num, size)`), `reduce` for `REDUCE_AXIS`
(`(reduce_op, axes)`), `st` for `VIEW`. -/
inductive Arg where
  | none
  | const (c : Int)
  | idx (n : Nat)
  | bufArg (num : Nat) (size : Nat)
  | reduce (alu : Ops) (axes : List Nat)
  | st (s : ShapeTracker)
deriving DecidableEq, Repr

/-- The universal IR node: opcode, dtype, ordered sources, argument.
Nodes are value-equal (the source hash-conses them, so value equality
coincides with identity). -/
inductive UOp where
  | mk (op : Ops) (dtype : DType) (src : List UOp) (arg : Arg)
deriving Repr

mutual

/-- Decidable (value) equality on UOps, by mutual structural recursion
with equality of source lists. -/
def UOp.decEq : (a b : UOp) → Decidable (a = b)
  | .mk o1 d1 s1 g1, .mk o2 d2 s2 g2 =>
    if h1 : o1 = o2 then
      if h2 : d1 = d2 then
        if h4 : g1 = g2 then
          match UOp.decEqList s1 s2 with
          | isTrue h3 => isTrue (by rw [h1, h2, h3, h4])
          | isFalse h3 => isFalse (by intro h; cases h; exact h3 rfl)
        else isFalse (by intro h; cases h; exact h4 rfl)
      else isFalse (by intro h; cases h; exact h2 rfl)
    else isFalse (by intro h; cases h; exact h1 rfl)

/-- Decidable equality on lists of UOps. -/
def UOp.decEqList : (a b : List UOp) → Decidable (a = b)
  | [], [] => isTrue rfl
  | [], _ :: _ => isFalse (by intro h; cases h)
  | _ :: _, [] => isFalse (by intro h; cases h)
  | x :: xs, y :: ys =>
    match UOp.decEq x y, UOp.decEqList xs ys with
    | isTrue h1, isTrue h2 => isTrue (by rw [h1, h2])
    | isFalse h1, _ => isFalse (by intro h; cases h; exact h1 rfl)
    | _, isFalse h2 => isFalse (by intro h; cases h; exact h2 rfl)

end

instance : DecidableEq UOp := UOp.decEq

def UOp.op : UOp → Ops | .mk o _ _ _ => o
def UOp.dtype : UOp → DType | .mk _ d _ _ => d
def UOp.src : UOp → List UOp | .mk _ _ s _ => s
def UOp.arg : UOp → Arg | .mk _ _ _ a => a

instance : Inhabited UOp := ⟨.mk .SINK ⟨⟨0, 0⟩, false⟩ [] .none⟩

/-- `x.buf_uop` of the source: the first source (the BUFFER uop) of a
LOAD/PRELOAD/STORE. -/
def UOp.bufUop (u : UOp) : UOp := u.src.headD default

/-- `x.st_arg` of the source: the ShapeTracker argument of the VIEW uop
in source position 1 of a LOAD/PRELOAD/STORE. -/
def UOp.stArg (u : UOp) : ShapeTracker :=
  match u.src.getD 1 default with
  | .mk _ _ _ (.st s) => s
  | _ => default

/-- The integer constant payload (`x.const_arg`). -/
def UOp.constArg (u : UOp) : Int :=
  match u.arg with
  | .const c => c
  | _ => 0

/-- The `size` entry of a BUFFER uop's `(num, size)` argument. -/
def UOp.bufSize (u : UOp) : Nat :=
  match u.arg with
  | .bufArg _ s => s
  | _ => 0

/-- The concrete device buffer behind a BUFFER uop (`u.buffer` in the
source; buffers are identified by their unique `(num, size)`). -/
structure Buffer where
  num : Nat
  size : Nat
deriving DecidableEq, Repr

def UOp.buffer (u : UOp) : Buffer :=
  match u.arg with
  | .bufArg n s => ⟨n, s⟩
  | _ => ⟨0, 0⟩

/-- Shape of a node, non-recursively: a VIEW carries its tracker, a
CONST carries a VIEW source holding its tracker (the tensor-IR const
shape). -/
def UOp.shape0 : UOp → List Nat
  | .mk .VIEW _ _ (.st s) => s.shape
  | .mk .CONST _ [.mk .VIEW _ _ (.st s)] _ => s.shape
  | _ => []

/-- Modelled from the spec: the output shape of a `REDUCE_AXIS` keeps
the rank and sets the reduced axes to 1 (the `(reduce_op, axes)`
argument of §3; `ShapeTracker.reduce` is a black-box method). -/
def reduceShape (shape : List Nat) (axes : List Nat) : List Nat :=
  shape.mapIdx (fun i s => if i ∈ axes then 1 else s)

/-- Shape of a node as the scheduler's `uop.shape` would give it for the
node forms the folding rules touch. -/
def UOp.shapeD (u : UOp) : List Nat :=
  match u with
  | .mk .REDUCE_AXIS _ (x :: _) (.reduce _ axes) => reduceShape x.shape0 axes
  | _ => u.shape0

/-- `uop.size`: the product of the shape. -/
def UOp.sizeD (u : UOp) : Nat := u.shapeD.prod

/-- Modelled from the spec: `uop.const_like(c)` builds a CONST of the
same dtype holding `c` (the CONST's own view source is not tracked by
the claims, which compare opcode, dtype and value). -/
def UOp.const_like (u : UOp) (c : Int) : UOp :=
  .mk .CONST u.dtype [] (.const c)

/-- `all_int` of the source; shapes are modelled as concrete naturals
(symbolic shapes are not modelled), so it is always true. -/
def all_int (_ : List Nat) : Bool := true

/-- Modelled from the spec: `identity_element` of `tinygrad/ops.py`
(§4.D: "Add→0, Mul→1, Max→dtype_min"). -/
def identity_element (alu : Ops) (d : DType) : Int :=
  match alu with
  | .ADD => 0
  | .MUL => 1
  | .MAX => d.base.minVal
  | _ => 0

/-- `simplify_reduceop` (schedule.py:349-359): fold a reduce of a
constant by multiplying/powering by the product of the reduced-axis
sizes. -/
def simplify_reduceop (reduce x : UOp) : Option UOp :=
  if !all_int x.shapeD then none else
  match reduce.arg with
  | .reduce alu axes =>
    let prshape : Nat := (axes.map (fun i => x.shapeD.getD i 1)).prod
    match alu with
    | .ADD => some (reduce.const_like (x.constArg * prshape))
    | .MUL => some (reduce.const_like (x.constArg ^ prshape))
    | .MAX => some (reduce.const_like x.constArg)
    | _ => none
  | _ => none

/-- The first `ops_folding` rule (schedule.py:373-374): an op whose view
has size 0 collapses to `const 0` (unless it already is `CONST 0`). -/
def size0_fold (root : UOp) : Option UOp :=
  if root.sizeD == 0 && !(root.op == .CONST && root.arg == .const 0) then
    some (root.const_like 0)
  else none

/-- The `ops_folding` reduce-identity rule (schedule.py:380-381): a
reduce of a size-0 input (whose own size is nonzero) becomes the
identity element of its reduce op. -/
def reduce_identity_fold (reduce : UOp) : Option UOp :=
  match reduce with
  | .mk .REDUCE_AXIS d [x] (.reduce alu _) =>
    if x.sizeD == 0 && reduce.sizeD != 0 then
      some (reduce.const_like (identity_element alu d))
    else none
  | _ => none

/-- The `ops_folding` rules applicable to a `REDUCE_AXIS` root, tried in
the source's list order (schedule.py:371-401): the size-0 rule, the
reduce-identity rule, then `simplify_reduceop` for a CONST input
(`UPat.cvar`).  The external `symbolic_simple` rules carry no
`REDUCE_AXIS` patterns. -/
def ops_folding_reduce (root : UOp) : Option UOp :=
  match size0_fold root with
  | some r => some r
  | none =>
    match reduce_identity_fold root with
    | some r => some r
    | none =>
      match root with
      | .mk .REDUCE_AXIS _ [x] _ =>
        if x.op == .CONST then simplify_reduceop root x else none
      | _ => none

/-- `ShapeTracker.to_uop()` (black box per §3): embed a tracker as a
VIEW op with no sources. -/
def st_to_uop (s : ShapeTracker) : UOp :=
  .mk .VIEW ⟨⟨0, 0⟩, false⟩ [] (.st s)

/-- `load_realized` (schedule.py:479-481): a VIEW of a realized BUFFER
becomes PRELOAD when the buffer is an assign target, LOAD otherwise,
with the buffer and the view's tracker as sources and the buffer's base
dtype. -/
def load_realized (assigns : List UOp) (b st : UOp) : UOp :=
  .mk (if assigns.contains b then .PRELOAD else .LOAD) b.dtype.baseDT
    [b, st_to_uop (match st.arg with | .st s => s | _ => default)] .none

/-- The `break_sched` rule for `VIEW(BUFFER)` with no stored op
(schedule.py:489-496, third pattern): delegate to `load_realized`. -/
def break_sched_load (assigns : List UOp) (u : UOp) : Option UOp :=
  match u with
  | .mk .VIEW _ [b] _ =>
    if b.op == .BUFFER then some (load_realized assigns b u) else none
  | _ => none

/-- `dedup` of `tinygrad/helpers.py`: keep the first occurrence of each
element, preserving order. -/
def dedupAcc {α : Type} [DecidableEq α] (seen : List α) : List α → List α
  | [] => []
  | x :: xs => if x ∈ seen then dedupAcc seen xs else x :: dedupAcc (x :: seen) xs

def dedup {α : Type} [DecidableEq α] (l : List α) : List α := dedupAcc [] l

/-- Association-list lookup (first matching key), standing in for a
Python dict access. -/
def aGet {α β : Type} [DecidableEq α] (l : List (α × β)) (k : α) : Option β :=
  (l.find? (fun p => p.1 == k)).map Prod.snd

/-- Association-list assignment, matching Python dict semantics: update
the existing entry in place (keeping its position), else append at the
end. -/
def aSet {α β : Type} [DecidableEq α] : List (α × β) → α → β → List (α × β)
  | [], k, v => [(k, v)]
  | p :: l, k, v => if p.1 == k then (k, v) :: l else p :: aSet l k v

/-- Association-list deletion (Python `del d[k]`): remove the entry. -/
def aDel {α β : Type} [DecidableEq α] (l : List (α × β)) (k : α) : List (α × β) :=
  l.filter (fun p => p.1 != k)

/-- The part of the mutable `ScheduleContext` (schedule.py:77-87) that
the buffer-merge pass touches: `tensor_uops` and `realizes`, both
insertion-ordered dicts keyed by BUFFER uops. -/
structure SchedCtx where
  tensor_uops : List (UOp × List UOp)
  realizes : List (UOp × UOp)
deriving DecidableEq, Repr

/-- `merge` (schedule.py:405-415): collapse `View(B2, View(B1, op))`.
If `b2` is realized, `b1` becomes realized and `b2`'s entry is deleted;
`b1` inherits `b2`'s tensor links; the returned node is `v1` (missing
`tensor_uops` keys are treated as empty lists; the source would raise a
`KeyError` there). -/
def merge (ctx : SchedCtx) (v1 b1 _v2 b2 : UOp) : SchedCtx × UOp :=
  let ctx1 :=
    if (aGet ctx.realizes b2).isSome then
      { ctx with realizes := aDel (aSet ctx.realizes b1 b1) b2 }
    else ctx
  let t1 := (aGet ctx1.tensor_uops b1).getD []
  let t2 := (aGet ctx1.tensor_uops b2).getD []
  ({ ctx1 with tensor_uops := aDel (aSet ctx1.tensor_uops b1 (t1 ++ t2)) b2 }, v1)

/-- The first `merge_bufs` rule (schedule.py:422-424): match
`VIEW(BUFFER b2, VIEW(BUFFER b1, op))` and call `merge`.  The source
asserts `v1.st == v2.st`; the assertion is modelled as a guard. -/
def merge_bufs_step (ctx : SchedCtx) (u : UOp) : Option (SchedCtx × UOp) :=
  match u with
  | .mk .VIEW dv2 [.mk .BUFFER db2 sb2 ab2,
      .mk .VIEW dv1 [.mk .BUFFER db1 sb1 ab1, op] av1] av2 =>
    let b2 : UOp := .mk .BUFFER db2 sb2 ab2
    let b1 : UOp := .mk .BUFFER db1 sb1 ab1
    let v1 : UOp := .mk .VIEW dv1 [b1, op] av1
    let v2 : UOp := .mk .VIEW dv2 [b2, v1] av2
    if av1 == av2 then some (merge ctx v1 b1 v2 b2) else none
  | _ => none

/-- The raise condition of schedule.py:223-227 for a PRELOAD of a buffer
the same kernel stores: the view is not contiguous and it is not a
single masked view whose shrink equals the shrink of a fresh contiguous
tracker of the same shape. -/
def preload_cond_ok (F : STFuns) (st : ShapeTracker) : Bool :=
  F.contiguous st ||
    (match st.views with
     | [v] =>
       match v.mask with
       | some m => F.shrink (F.fromShape st.shape) m == F.shrink st m
       | none => false
     | _ => false)

/-- Whether a PRELOAD node trips the "self operand of augmented assign"
error (schedule.py:222-227). -/
def preload_violates (F : STFuns) (store_bufs : List UOp) (x : UOp) : Bool :=
  store_bufs.contains x.bufUop && !preload_cond_ok F x.stArg

/-- The error message of schedule.py:218. -/
def cycleMsg : String := "cycle detected in graph"

/-- The error message of schedule.py:226-227 (color help text omitted). -/
def selfAssignMsg : String := "self operand of augmented assign must be contiguous"

/-- The ASSIGN-handling loop of `schedule_uop` (schedule.py:214-227),
walking the reversed toposort of the kernel sink and accumulating
`assign_preloads`:
a LOAD of a buffer already collected raises the cycle error; a PRELOAD
collects its buffer and, when the kernel also stores that buffer,
enforces the contiguity condition. -/
def assignCheckLoop (F : STFuns) (store_bufs : List UOp) :
    List UOp → List UOp → Except String (List UOp)
  | acc, [] => .ok acc
  | acc, x :: rest =>
    if x.op == .LOAD && acc.contains x.bufUop then .error cycleMsg
    else if x.op == .PRELOAD then
      if preload_violates F store_bufs x then .error selfAssignMsg
      else assignCheckLoop F store_bufs (acc ++ [x.bufUop]) rest
    else assignCheckLoop F store_bufs acc rest

/-- `_append_buf` (schedule.py:185-187): append the BUFFER uop to the
context and emit `DEFINE_GLOBAL` with the next sequential index
(pointer dtypes are not modelled; the DEFINE_GLOBAL keeps the buffer's
dtype). -/
def append_buf (bufs : List UOp) (x : UOp) : List UOp × UOp :=
  (bufs ++ [x], .mk .DEFINE_GLOBAL x.dtype [] (.idx bufs.length))

/-- Buffer collection of the `to_si` lowering pass: each distinct BUFFER
uop of the kernel AST is passed through `append_buf` once, in encounter
order (the rewrite engine memoizes, so each node is rewritten once).
Returns the collected `ctx.bufs` and the DEFINE_GLOBAL nodes. -/
def lowerAux : List UOp → List UOp × List UOp → List UOp × List UOp
  | [], st => st
  | x :: xs, (bs, dgs) =>
    let r := append_buf bs x
    lowerAux xs (r.1, dgs ++ [r.2])

def lower_bufs (xs : List UOp) : List UOp × List UOp := lowerAux xs ([], [])

/-- The `bufs` field of the emitted ScheduleItem (schedule.py:231):
the concrete buffers of the collected BUFFER uops, zero-size buffers
filtered out. -/
def si_bufs (ctx_bufs : List UOp) : List Buffer :=
  (ctx_bufs.filter (fun u => u.bufSize != 0)).map UOp.buffer

/-- The output type of the scheduler (schedule.py:58-73). `metadata` is
opaque provenance data. -/
structure ScheduleItem where
  ast : UOp
  bufs : List Buffer
  metadata : List Nat
  assign_preloads : List UOp
deriving DecidableEq, Repr

/-- The DEFINE_GLOBAL index payload of a node (`x.src[0].arg`). -/
def UOp.argIdx : UOp → Nat
  | .mk _ _ _ (.idx n) => n
  | _ => 0

/-- `ScheduleItem.output_idxs` (schedule.py:72-73): the DEFINE_GLOBAL
arguments of the Sink's stores, or `(0,)` when the ast is not a Sink. -/
def ScheduleItem.output_idxs (si : ScheduleItem) : List Nat :=
  if si.ast.op == .SINK then si.ast.src.map (fun x => (x.src.headD default).argIdx)
  else [0]

/-- `ScheduleItem.outputs` (schedule.py:64-67). -/
def ScheduleItem.outputs (si : ScheduleItem) : List Buffer :=
  (si.bufs.enum.filter (fun p => p.1 ∈ si.output_idxs)).map Prod.snd

/-- `ScheduleItem.inputs` (schedule.py:68-71). -/
def ScheduleItem.inputs (si : ScheduleItem) : List Buffer :=
  (si.bufs.enum.filter (fun p => p.1 ∉ si.output_idxs)).map Prod.snd

/-- `schedule_uop` (schedule.py:208-232) restricted to what the claims
observe: run the ASSIGN cycle/contiguity checks over the reversed
toposort of the kernel sink (skipped when there are no assigns), then
build the ScheduleItem from the lowered ast, the collected buffers, and
the deduplicated assign preloads.  The graph-rewrite passes producing
`ast`, `rev_topo` and `ctx_bufs` are upstream of the checked logic. -/
def schedule_uop_checked (F : STFuns) (assigns : List UOp) (store_bufs : List UOp)
    (rev_topo : List UOp) (ast : UOp) (ctx_bufs : List UOp) (metadata : List Nat) :
    Except String ScheduleItem :=
  match (if assigns.isEmpty then .ok [] else assignCheckLoop F store_bufs [] rev_topo :
      Except String (List UOp)) with
  | .error e => .error e
  | .ok aps => .ok ⟨ast, si_bufs ctx_bufs, metadata, dedup aps⟩

/-- `schedule_targets` (schedule.py:548): dict comprehension mapping
each output buffer to its kernel; a later kernel overwrites an earlier
one, hence the last matching item wins. -/
def lookupTarget (pres : List ScheduleItem) (b : Buffer) : Option ScheduleItem :=
  (pres.filter (fun si => b ∈ si.outputs)).getLast?

/-- `parents_assigns` (schedule.py:553): kernels owning a buffer this
kernel preloads (excluding itself), deduplicated. -/
def parentsAssigns (pres : List ScheduleItem) (si : ScheduleItem) : List ScheduleItem :=
  dedup (si.assign_preloads.filterMap (fun x =>
    match lookupTarget pres x.buffer with
    | some xsi => if xsi ≠ si then some xsi else none
    | none => none))

/-- `scheduled_parents` (schedule.py:558): kernels owning one of this
kernel's input buffers, excluding assign-preload parents. -/
def scheduledParents (pres : List ScheduleItem) (si : ScheduleItem)
    (pa : List ScheduleItem) : List ScheduleItem :=
  dedup (si.inputs.filterMap (fun b =>
    match lookupTarget pres b with
    | some xsi => if xsi ∉ pa then some xsi else none
    | none => none))

/-- The dependency edges of schedule.py:549-561, in construction order:
an edge `(u, v)` means `graph[u]` contains `v` and `in_degree[v]` was
incremented, i.e. `u` must be scheduled before `v`. -/
def buildEdges (pres : List ScheduleItem) : List (ScheduleItem × ScheduleItem) :=
  pres.flatMap (fun si =>
    let pa := parentsAssigns pres si
    let sp := scheduledParents pres si pa
    pa.map (fun a => (si, a)) ++ sp.map (fun x => (x, si)))

section Kahn

variable {V : Type} [DecidableEq V]

/-- Number of edges into `v` whose source has not been scheduled yet
(the semantic meaning of the mutable `in_degree[v]`). -/
def countIn (edges : List (V × V)) (out : List V) (v : V) : Nat :=
  edges.countP (fun e => e.2 == v && !(out.contains e.1))

/-- `graph[u]`: the adjacency list of `u`, in edge construction order. -/
def adj (edges : List (V × V)) (u : V) : List V :=
  (edges.filter (fun e => e.1 == u)).map Prod.snd

/-- Read of the `in_degree` dict (0 for a missing key, as defaultdict). -/
def degGet (d : List (V × Int)) (v : V) : Int :=
  ((d.find? (fun p => p.1 == v)).map Prod.snd).getD 0

/-- `in_degree[v] -= 1`. -/
def degDec (d : List (V × Int)) (v : V) : List (V × Int) :=
  d.map (fun p => if p.1 == v then (p.1, p.2 - 1) else p)

/-- The inner loop of the BFS (schedule.py:568-570): decrement the
in-degree of each child of the popped node in adjacency order,
collecting the children whose in-degree reaches 0 (to be enqueued). -/
def relax (deg : List (V × Int)) : List V → List (V × Int) × List V
  | [] => (deg, [])
  | v :: vs =>
    let d' := degDec deg v
    let r := relax d' vs
    if degGet d' v == 0 then (r.1, v :: r.2) else r

/-- The BFS of schedule.py:564-570: repeatedly pop the queue head,
append it to the schedule, and relax its children.  The fuel bounds the
number of pops (each node is enqueued at most once, so `|verts|` pops
suffice; on pathological inputs exhausting the fuel the final length
check fails exactly as the source's check does). -/
def bfs (adjF : V → List V) : Nat → List (V × Int) → List V → List V → List V
  | 0, _, _, out => out
  | fuel + 1, deg, queue, out =>
    match queue with
    | [] => out
    | u :: qs =>
      let r := relax deg (adjF u)
      bfs adjF fuel r.1 (qs ++ r.2) (out ++ [u])

/-- Kahn's BFS toposort as the source runs it: initial in-degrees from
the edge multiset, initial queue the zero-in-degree nodes in insertion
order. -/
def kahnRun (verts : List V) (edges : List (V × V)) : List V :=
  let deg0 := verts.map (fun v => (v, (countIn edges [] v : Int)))
  let queue0 := verts.filter (fun v => degGet deg0 v == 0)
  bfs (adj edges) verts.length deg0 queue0 []

/-- `a` occurs strictly before `b` in the list `s`. -/
def listBefore (s : List V) (a b : V) : Prop :=
  ∃ i j : Nat, i < j ∧ s[i]? = some a ∧ s[j]? = some b

end Kahn

/-- The schedule assembly and toposort of `create_schedule_with_vars`
(schedule.py:547-572): build the kernel DAG from the prescheduled
items, BFS it, and fail when the emitted count differs from the kernel
count. -/
def create_schedule (pres : List ScheduleItem) : Except String (List ScheduleItem) :=
  let sched := kahnRun pres (buildEdges pres)
  if sched.length != pres.length then
    .error "cycle detected in graph, grouped count differs from scheduled count"
  else .ok sched

/-- The entry point's return (schedule.py:523-574) over the prescheduled
items: the schedule plus the context's `var_vals` (accumulated upstream
during lowering and threaded through unchanged here). -/
def create_schedule_with_vars (pres : List ScheduleItem) (var_vals : List (Nat × Int)) :
    Except String (List ScheduleItem × List (Nat × Int)) :=
  (create_schedule pres).map (fun s => (s, var_vals))

/-- Each buffer is written by at most one prescheduled kernel (true of
the pipeline: `realizes` groups partition the realized buffers). -/
def uniqueWriter (pres : List ScheduleItem) : Prop :=
  ∀ s1 ∈ pres, ∀ s2 ∈ pres, s1 ≠ s2 → ∀ b ∈ s1.outputs, b ∉ s2.outputs

/-- The glue invariant of the BFS toposort: the scheduled prefix and
queue are duplicate-free vertices; the in-degree table carries, for
every vertex, the number of edges whose source is not yet scheduled;
every queued vertex has all of its in-edge sources scheduled; and every
scheduled vertex appears after the sources of all its in-edges. -/
def kahnInv {V : Type} [DecidableEq V] (edges : List (V × V)) (verts : List V)
    (deg : List (V × Int)) (queue out : List V) : Prop :=
  (out ++ queue).Nodup ∧
  (∀ v ∈ out, v ∈ verts) ∧
  (∀ v ∈ queue, v ∈ verts) ∧
  deg.map Prod.fst = verts ∧
  (∀ w : V, degGet deg w = (countIn edges out w : Int)) ∧
  (∀ v ∈ queue, ∀ e ∈ edges, e.2 = v → e.1 ∈ out) ∧
  (∀ e ∈ edges, ∀ i : Nat, out[i]? = some e.2 → ∃ j : Nat, j < i ∧ out[j]? = some e.1)

/-! Concrete values used by counterexamples and witnesses. -/

def dtEx : DType := ⟨⟨0, -128⟩, false⟩
def stEx0 : ShapeTracker := ⟨[⟨[0], [], 0, none⟩]⟩
def stEx03 : ShapeTracker := ⟨[⟨[0, 3], [], 0, none⟩]⟩
def stEx4 : ShapeTracker := ⟨[⟨[4], [], 0, none⟩]⟩
def stEx44 : ShapeTracker := ⟨[⟨[4], [], 0, none⟩, ⟨[4], [], 0, none⟩]⟩

def xEx5 : UOp := .mk .CONST dtEx [.mk .VIEW dtEx [] (.st stEx0)] (.const 5)
def rExMax : UOp := .mk .REDUCE_AXIS dtEx [xEx5] (.reduce .MAX [0])
def xEx03 : UOp := .mk .CONST dtEx [.mk .VIEW dtEx [] (.st stEx03)] (.const 5)
def rExMul : UOp := .mk .REDUCE_AXIS dtEx [xEx03] (.reduce .MUL [1])
def xEx4c : UOp := .mk .CONST dtEx [.mk .VIEW dtEx [] (.st stEx4)] (.const 3)
def rExAdd : UOp := .mk .REDUCE_AXIS dtEx [xEx4c] (.reduce .ADD [0])
def xEx0c : UOp := .mk .CONST dtEx [.mk .VIEW dtEx [] (.st stEx0)] (.const 9)
def rExAdd0 : UOp := .mk .REDUCE_AXIS dtEx [xEx0c] (.reduce .ADD [0])

def b1Ex : UOp := .mk .BUFFER dtEx [] (.bufArg 1 4)
def b2Ex : UOp := .mk .BUFFER dtEx [] (.bufArg 2 4)
def opEx : UOp := .mk .ADD dtEx [] .none
def v1Ex : UOp := .mk .VIEW dtEx [b1Ex, opEx] (.st stEx4)
def uMergeEx : UOp := .mk .VIEW dtEx [b2Ex, v1Ex] (.st stEx4)
def ctxEx : SchedCtx := ⟨[(b1Ex, [opEx]), (b2Ex, [])], [(b2Ex, b2Ex)]⟩

def bufU0 : UOp := .mk .BUFFER dtEx [] (.bufArg 0 0)
def bufU1 : UOp := .mk .BUFFER dtEx [] (.bufArg 1 4)
def bufU2 : UOp := .mk .BUFFER dtEx [] (.bufArg 2 8)

def bufB : UOp := .mk .BUFFER dtEx [] (.bufArg 7 4)
def plEx : UOp := .mk .PRELOAD dtEx [bufB, st_to_uop stEx4] .none
def ldEx : UOp := .mk .LOAD dtEx [bufB, st_to_uop stEx4] .none
def plBad : UOp := .mk .PRELOAD dtEx [bufB, st_to_uop stEx44] .none
def astEx : UOp := .mk .SINK dtEx [] .none

def bA : Buffer := ⟨0, 4⟩
def bC : Buffer := ⟨1, 4⟩
def pbA : UOp := .mk .BUFFER dtEx [] (.bufArg 0 4)
def dgEx0 : UOp := .mk .DEFINE_GLOBAL dtEx [] (.idx 0)
def dgEx1 : UOp := .mk .DEFINE_GLOBAL dtEx [] (.idx 1)
def astSink0 : UOp := .mk .SINK dtEx [.mk .STORE dtEx [dgEx0] .none] .none
def astSink1 : UOp := .mk .SINK dtEx [.mk .STORE dtEx [dgEx1] .none] .none

/-- A kernel that reads `bA` in pre-assign mode (preload) and writes
`bC`. -/
def KReader : ScheduleItem := ⟨astSink1, [bA, bC], [], [pbA]⟩

/-- A kernel that writes (assigns) `bA`. -/
def KWriter : ScheduleItem := ⟨astSink0, [bA], [], []⟩

/-- A kernel that plainly reads `bA` and writes `bC` (no preloads). -/
def KConsumer : ScheduleItem := ⟨astSink1, [bA, bC], [], []⟩

/-- A PRELOAD of some buffer occurring strictly before a LOAD of the
same buffer in the reversed toposort: the configuration in which the
assign-cycle check fires. -/
def hasCyclePair (l : List UOp) : Prop :=
  ∃ i j : Nat, ∃ xi xj : UOp, i < j ∧ l[i]? = some xi ∧ l[j]? = some xj ∧
    xi.op = .PRELOAD ∧ xj.op = .LOAD ∧ xi.bufUop = xj.bufUop

/-! General helper lemmas. -/

theorem contains_eq_true_iff {α : Type} [DecidableEq α] (l : List α) (a : α) :
    l.contains a = true ↔ a ∈ l := by
  simp [List.contains, List.elem_iff]

theorem reduceShape_prod_ne_zero {shape axes : List Nat} (h : shape.prod ≠ 0) :
    (reduceShape shape axes).prod ≠ 0 := by
  intro h0
  rw [List.prod_eq_zero_iff] at h0
  rw [reduceShape, List.mapIdx_eq_enum_map] at h0
  obtain ⟨⟨i, x⟩, hmem, hx⟩ := List.mem_map.mp h0
  simp only [Function.uncurry] at hx
  by_cases hi : i ∈ axes
  · simp [hi] at hx
  · simp only [hi, if_false] at hx
    obtain ⟨hlt, hxe⟩ := List.mem_enum hmem
    exact h (List.prod_eq_zero_iff.mpr (hx ▸ hxe ▸ List.getElem_mem hlt))

/-- Claim C9: the `break_sched` rewrite of a `VIEW` over a (realized)
BUFFER with no stored op yields a PRELOAD exactly when the buffer is in
the context's assigns, a LOAD otherwise, keeping the buffer and the
view's shape tracker as sources and the buffer's base dtype. -/
theorem break_sched_load_spec (assigns : List UOp) (d db : DType) (sb : List UOp)
    (ab : Arg) (s : ShapeTracker) :
    ∃ r : UOp,
      break_sched_load assigns (.mk .VIEW d [.mk .BUFFER db sb ab] (.st s)) = some r ∧
      (r.op = .PRELOAD ↔ (UOp.mk .BUFFER db sb ab) ∈ assigns) ∧
      (r.op = .LOAD ↔ (UOp.mk .BUFFER db sb ab) ∉ assigns) ∧
      r.src = [.mk .BUFFER db sb ab, st_to_uop s] ∧
      r.dtype = db.baseDT := by
  refine ⟨load_realized assigns (.mk .BUFFER db sb ab)
    (.mk .VIEW d [.mk .BUFFER db sb ab] (.st s)), ?_, ?_, ?_, ?_, ?_⟩
  · rfl
  · by_cases h : (UOp.mk .BUFFER db sb ab) ∈ assigns <;>
      simp [load_realized, UOp.op, contains_eq_true_iff, h]
  · by_cases h : (UOp.mk .BUFFER db sb ab) ∈ assigns <;>
      simp [load_realized, UOp.op, contains_eq_true_iff, h]
  · by_cases h : (UOp.mk .BUFFER db sb ab) ∈ assigns <;>
      simp [load_realized, UOp.src, contains_eq_true_iff, h, UOp.arg]
  · by_cases h : (UOp.mk .BUFFER db sb ab) ∈ assigns <;>
      simp [load_realized, UOp.dtype, contains_eq_true_iff, h]

/-- Claim C5 (amended): the folding pass rewrites a `ReduceAxis` whose
input is an unmasked constant `c` of nonzero size to a constant — `Add`
gives `c` times the product of the reduced-axis sizes, `Mul` gives `c`
to that power, `Max` gives `c` — and leaves a `ReduceAxis` with any
other reduce op unchanged.  (A size-0 constant input is intercepted by
the earlier size-0 rules; see the counterexample.) -/
theorem ops_folding_reduce_const (dc dr : DType) (s : ShapeTracker) (c : Int)
    (alu : Ops) (axes : List Nat) (x r : UOp)
    (hx : x = UOp.mk .CONST dc [.mk .VIEW dc [] (.st s)] (.const c))
    (hr : r = UOp.mk .REDUCE_AXIS dr [x] (.reduce alu axes))
    (_hmask : ∀ w ∈ s.views, w.mask = none)
    (hsz : s.shape.prod ≠ 0) :
    (alu = .ADD → ops_folding_reduce r =
      some (r.const_like (c * ((axes.map (fun i => s.shape.getD i 1)).prod : Nat)))) ∧
    (alu = .MUL → ops_folding_reduce r =
      some (r.const_like (c ^ (axes.map (fun i => s.shape.getD i 1)).prod))) ∧
    (alu = .MAX → ops_folding_reduce r = some (r.const_like c)) ∧
    (alu ≠ .ADD → alu ≠ .MUL → alu ≠ .MAX → ops_folding_reduce r = none) := by
  subst hx hr
  have hxsh : (UOp.mk .CONST dc [.mk .VIEW dc [] (.st s)] (.const c)).shapeD = s.shape := rfl
  have hxsz : (UOp.mk .CONST dc [.mk .VIEW dc [] (.st s)] (.const c)).sizeD = s.shape.prod := rfl
  have hrsz : (UOp.mk .REDUCE_AXIS dr
      [UOp.mk .CONST dc [.mk .VIEW dc [] (.st s)] (.const c)] (.reduce alu axes)).sizeD ≠ 0 := by
    show (reduceShape s.shape axes).prod ≠ 0
    exact reduceShape_prod_ne_zero hsz
  have hmain : ops_folding_reduce (UOp.mk .REDUCE_AXIS dr
      [UOp.mk .CONST dc [.mk .VIEW dc [] (.st s)] (.const c)] (.reduce alu axes)) =
      simplify_reduceop (UOp.mk .REDUCE_AXIS dr
        [UOp.mk .CONST dc [.mk .VIEW dc [] (.st s)] (.const c)] (.reduce alu axes))
        (UOp.mk .CONST dc [.mk .VIEW dc [] (.st s)] (.const c)) := by
    simp [ops_folding_reduce, size0_fold, reduce_identity_fold, hrsz, hxsz, hsz, UOp.op]
  refine ⟨?_, ?_, ?_, ?_⟩
  · rintro rfl
    rw [hmain]
    simp [simplify_reduceop, all_int, UOp.arg, UOp.constArg, hxsh]
  · rintro rfl
    rw [hmain]
    simp [simplify_reduceop, all_int, UOp.arg, UOp.constArg, hxsh]
  · rintro rfl
    rw [hmain]
    simp [simplify_reduceop, all_int, UOp.arg, UOp.constArg, hxsh]
  · intro h1 h2 h3
    rw [hmain]
    simp only [simplify_reduceop, all_int, Bool.not_true, Bool.false_eq_true, if_false]
    cases alu <;> simp_all [UOp.arg]

/-- Claim C5 (counterexample): on a `Max` reduce over the unmasked
constant 5 with shape `[0]` (size 0), the folding pass produces the
dtype minimum via the reduce-identity rule, not the unchanged constant
5 the claim requires for `Max`. -/
theorem ops_folding_reduce_const_max_size0 :
    ops_folding_reduce rExMax = some (rExMax.const_like (-128)) ∧
    rExMax.const_like (-128) ≠ rExMax.const_like 5 :=
  ⟨rfl, by decide⟩

/-- Witness for claim C5: an `Add` reduce of the constant 3 over shape
`[4]` folds to the constant 12. -/
theorem ops_folding_reduce_const_witness :
    ops_folding_reduce rExAdd = some (rExAdd.const_like 12) := by
  have h := (ops_folding_reduce_const dtEx dtEx stEx4 3 .ADD [0] xEx4c rExAdd rfl rfl
      (by decide) (by decide)).1 rfl
  simpa using h

/-- Claim C6 (amended): the folding pass rewrites a `ReduceAxis` whose
input has size 0 and whose own size is nonzero to the identity element
of its reduce op; when the reduce's own size is also 0, the earlier
size-0 rule folds it to the constant 0 instead (see the
counterexample). -/
theorem ops_folding_reduce_size0_identity (d : DType) (x : UOp) (alu : Ops)
    (axes : List Nat) (r : UOp)
    (hr : r = UOp.mk .REDUCE_AXIS d [x] (.reduce alu axes))
    (h0 : x.sizeD = 0) (hrs : r.sizeD ≠ 0) :
    ops_folding_reduce r = some (r.const_like (identity_element alu d)) := by
  subst hr
  simp [ops_folding_reduce, size0_fold, reduce_identity_fold, h0, hrs]

/-- Claim C6 (counterexample): a `Mul` reduce over axis 1 of a constant
with shape `[0, 3]` has input size 0, but the folding pass rewrites it
to the constant 0 (its own size is also 0), not to the `Mul` identity
element 1. -/
theorem ops_folding_reduce_size0_mul :
    ops_folding_reduce rExMul = some (rExMul.const_like 0) ∧
    rExMul.const_like 0 ≠ rExMul.const_like (identity_element .MUL dtEx) :=
  ⟨rfl, by decide⟩

/-- Witness for claim C6: an `Add` reduce over a size-0 constant with
nonzero own size folds to the `Add` identity element 0. -/
theorem ops_folding_reduce_size0_identity_witness :
    ops_folding_reduce rExAdd0 = some (rExAdd0.const_like (identity_element .ADD dtEx)) :=
  ops_folding_reduce_size0_identity dtEx xEx0c .ADD [0] rExAdd0 rfl (by decide) (by decide)

/-! Association-list lemmas. -/

theorem aGet_cons {α β : Type} [DecidableEq α] (p : α × β) (l : List (α × β)) (k : α) :
    aGet (p :: l) k = if p.1 = k then some p.2 else aGet l k := by
  by_cases h : p.1 = k <;> simp [aGet, List.find?_cons, h]

theorem aDel_cons {α β : Type} [DecidableEq α] (p : α × β) (l : List (α × β)) (k : α) :
    aDel (p :: l) k = if p.1 = k then aDel l k else p :: aDel l k := by
  by_cases h : p.1 = k <;> simp [aDel, List.filter_cons, h]

theorem aSet_cons {α β : Type} [DecidableEq α] (p : α × β) (l : List (α × β)) (k : α) (v : β) :
    aSet (p :: l) k v = if p.1 = k then (k, v) :: l else p :: aSet l k v := by
  by_cases h : p.1 = k <;> simp [aSet, h]

theorem aGet_aSet_self {α β : Type} [DecidableEq α] (l : List (α × β)) (k : α) (v : β) :
    aGet (aSet l k v) k = some v := by
  induction l with
  | nil => simp [aGet, aSet, List.find?_cons]
  | cons p l ih =>
    rw [aSet_cons]
    by_cases h : p.1 = k
    · rw [if_pos h, aGet_cons, if_pos rfl]
    · rw [if_neg h, aGet_cons, if_neg h]
      exact ih

theorem aGet_aSet_ne {α β : Type} [DecidableEq α] (l : List (α × β)) (k k' : α) (v : β)
    (h : k' ≠ k) : aGet (aSet l k v) k' = aGet l k' := by
  induction l with
  | nil => simp [aGet, aSet, List.find?_cons, Ne.symm h]
  | cons p l ih =>
    rw [aSet_cons]
    by_cases hp : p.1 = k
    · rw [if_pos hp, aGet_cons, aGet_cons, if_neg (Ne.symm h),
        if_neg (by rw [hp]; exact Ne.symm h)]
    · rw [if_neg hp, aGet_cons, aGet_cons]
      by_cases hp' : p.1 = k'
      · rw [if_pos hp', if_pos hp']
      · rw [if_neg hp', if_neg hp']
        exact ih

theorem aGet_aDel_self {α β : Type} [DecidableEq α] (l : List (α × β)) (k : α) :
    aGet (aDel l k) k = none := by
  induction l with
  | nil => simp [aGet, aDel]
  | cons p l ih =>
    rw [aDel_cons]
    by_cases h : p.1 = k
    · rw [if_pos h]; exact ih
    · rw [if_neg h, aGet_cons, if_neg h]; exact ih

theorem aGet_aDel_ne {α β : Type} [DecidableEq α] (l : List (α × β)) (k k' : α)
    (h : k' ≠ k) : aGet (aDel l k) k' = aGet l k' := by
  induction l with
  | nil => simp [aGet, aDel]
  | cons p l ih =>
    rw [aDel_cons]
    by_cases hp : p.1 = k
    · rw [if_pos hp, aGet_cons, if_neg (by rw [hp]; exact Ne.symm h)]
      exact ih
    · rw [if_neg hp, aGet_cons, aGet_cons]
      by_cases hp' : p.1 = k'
      · rw [if_pos hp', if_pos hp']
      · rw [if_neg hp', if_neg hp']
        exact ih

/-- Claim C7 (amended): the buffer-merge rule rewrites
`View(B2, View(B1, op))` (equal shape trackers) to the inner
`View(B1, op)` — the inner buffer `B1`'s identity always survives.
The surviving buffer's tensor links become its own followed by `B2`'s
and `B2`'s `tensor_uops` entry is removed; if `B2` was realized, `B1`
is marked realized and `B2`'s realize entry is removed, otherwise
`realizes` is unchanged. -/
theorem merge_bufs_keeps_inner_buffer (ctx : SchedCtx)
    (db1 db2 dv1 dv2 : DType) (sb1 sb2 : List UOp) (ab1 ab2 : Arg)
    (av : Arg) (op : UOp) (b1 b2 v1 u : UOp)
    (hb1 : b1 = UOp.mk .BUFFER db1 sb1 ab1)
    (hb2 : b2 = UOp.mk .BUFFER db2 sb2 ab2)
    (hv1 : v1 = UOp.mk .VIEW dv1 [b1, op] av)
    (hu : u = UOp.mk .VIEW dv2 [b2, v1] av)
    (hne : b1 ≠ b2) :
    (merge_bufs_step ctx u).isSome = true ∧
    ∀ (ctx2 : SchedCtx) (r : UOp), merge_bufs_step ctx u = some (ctx2, r) →
      r = v1 ∧
      aGet ctx2.tensor_uops b1 =
        some ((aGet ctx.tensor_uops b1).getD [] ++ (aGet ctx.tensor_uops b2).getD []) ∧
      aGet ctx2.tensor_uops b2 = none ∧
      ((aGet ctx.realizes b2).isSome = true →
        aGet ctx2.realizes b1 = some b1 ∧ aGet ctx2.realizes b2 = none) ∧
      (aGet ctx.realizes b2 = none → ctx2.realizes = ctx.realizes) := by
  subst hb1 hb2 hv1 hu
  have hstep : merge_bufs_step ctx (UOp.mk .VIEW dv2
      [UOp.mk .BUFFER db2 sb2 ab2,
       UOp.mk .VIEW dv1 [UOp.mk .BUFFER db1 sb1 ab1, op] av] av) =
      some (merge ctx (UOp.mk .VIEW dv1 [UOp.mk .BUFFER db1 sb1 ab1, op] av)
        (UOp.mk .BUFFER db1 sb1 ab1)
        (UOp.mk .VIEW dv2 [UOp.mk .BUFFER db2 sb2 ab2,
          UOp.mk .VIEW dv1 [UOp.mk .BUFFER db1 sb1 ab1, op] av] av)
        (UOp.mk .BUFFER db2 sb2 ab2)) := by
    simp [merge_bufs_step]
  refine ⟨by rw [hstep]; rfl, ?_⟩
  intro ctx2 r hmr
  rw [hstep] at hmr
  have hctx2 : ctx2 = (merge ctx (UOp.mk .VIEW dv1 [UOp.mk .BUFFER db1 sb1 ab1, op] av)
      (UOp.mk .BUFFER db1 sb1 ab1)
      (UOp.mk .VIEW dv2 [UOp.mk .BUFFER db2 sb2 ab2,
        UOp.mk .VIEW dv1 [UOp.mk .BUFFER db1 sb1 ab1, op] av] av)
      (UOp.mk .BUFFER db2 sb2 ab2)).1 := by
    injection hmr with h
    exact (congrArg Prod.fst h).symm
  have hrv : r = UOp.mk .VIEW dv1 [UOp.mk .BUFFER db1 sb1 ab1, op] av := by
    injection hmr with h
    exact (congrArg Prod.snd h).symm
  subst hctx2
  refine ⟨hrv, ?_, ?_, ?_, ?_⟩
  · by_cases hr2 : (aGet ctx.realizes (UOp.mk .BUFFER db2 sb2 ab2)).isSome
    · simp only [merge, hr2, if_true]
      rw [aGet_aDel_ne _ _ _ hne, aGet_aSet_self]
    · simp only [merge, hr2, Bool.false_eq_true, if_false]
      rw [aGet_aDel_ne _ _ _ hne, aGet_aSet_self]
  · by_cases hr2 : (aGet ctx.realizes (UOp.mk .BUFFER db2 sb2 ab2)).isSome
    · simp only [merge, hr2, if_true]
      rw [aGet_aDel_self]
    · simp only [merge, hr2, Bool.false_eq_true, if_false]
      rw [aGet_aDel_self]
  · intro hr2
    simp only [merge, hr2, if_true]
    constructor
    · rw [aGet_aDel_ne _ _ _ hne, aGet_aSet_self]
    · rw [aGet_aDel_self]
  · intro hr2
    have hs : (aGet ctx.realizes (UOp.mk .BUFFER db2 sb2 ab2)).isSome = false := by
      rw [hr2]; rfl
    simp only [merge, hs, Bool.false_eq_true, if_false]

/-- Claim C7 (counterexample): with `b1` not realized and `b2` realized
the claim says `B2`'s identity wins, but the rewrite returns the inner
`View(B1, op)`, whose buffer is `b1 ≠ b2`. -/
theorem merge_bufs_b2_does_not_win :
    (merge_bufs_step ctxEx uMergeEx).map (fun p => p.2.src.headD default) = some b1Ex ∧
    b1Ex ≠ b2Ex :=
  ⟨rfl, by decide⟩

/-- Witness for claim C7: the merged context drops `b2`'s tensor entry
and marks `b1` realized. -/
theorem merge_bufs_keeps_inner_buffer_witness :
    aGet (SchedCtx.mk [(b1Ex, [opEx])] [(b1Ex, b1Ex)]).tensor_uops b2Ex = none ∧
    aGet (SchedCtx.mk [(b1Ex, [opEx])] [(b1Ex, b1Ex)]).realizes b1Ex = some b1Ex := by
  have h := (merge_bufs_keeps_inner_buffer ctxEx dtEx dtEx dtEx dtEx [] [] (.bufArg 1 4)
      (.bufArg 2 4) (.st stEx4) opEx b1Ex b2Ex v1Ex uMergeEx rfl rfl rfl rfl
      (by decide)).2 ⟨[(b1Ex, [opEx])], [(b1Ex, b1Ex)]⟩ v1Ex rfl
  exact ⟨h.2.2.1, (h.2.2.2.1 rfl).1⟩

/-! Lemmas about the buffer-collection fold. -/

theorem mapIdx_getElem? {α β : Type} :
    ∀ (l : List α) (f : Nat → α → β) (i : Nat), (l.mapIdx f)[i]? = (l[i]?).map (f i)
  | [], _, _ => by simp
  | _ :: _, _, 0 => by simp [List.mapIdx_cons]
  | a :: l, f, i + 1 => by
    rw [List.mapIdx_cons, List.getElem?_cons_succ, List.getElem?_cons_succ,
      mapIdx_getElem? l (fun j => f (j + 1)) i]

theorem lowerAux_spec :
    ∀ (xs bs dgs : List UOp), lowerAux xs (bs, dgs) =
      (bs ++ xs, dgs ++ xs.mapIdx (fun i u =>
        UOp.mk .DEFINE_GLOBAL u.dtype [] (.idx (bs.length + i))))
  | [], bs, dgs => by simp [lowerAux]
  | x :: xs, bs, dgs => by
    have hf : (fun i (u : UOp) =>
        UOp.mk .DEFINE_GLOBAL u.dtype [] (.idx ((bs ++ [x]).length + i))) =
        (fun i (u : UOp) => UOp.mk .DEFINE_GLOBAL u.dtype [] (.idx (bs.length + (i + 1)))) := by
      funext i u
      simp [Nat.add_assoc, Nat.add_comm 1 i]
    calc lowerAux (x :: xs) (bs, dgs)
        = lowerAux xs (bs ++ [x], dgs ++ [UOp.mk .DEFINE_GLOBAL x.dtype [] (.idx bs.length)]) := by
          simp [lowerAux, append_buf]
      _ = (bs ++ [x] ++ xs, dgs ++ [UOp.mk .DEFINE_GLOBAL x.dtype [] (.idx bs.length)] ++
            xs.mapIdx (fun i u =>
              UOp.mk .DEFINE_GLOBAL u.dtype [] (.idx ((bs ++ [x]).length + i)))) := by
          rw [lowerAux_spec xs (bs ++ [x]) _]
      _ = (bs ++ (x :: xs), dgs ++ (x :: xs).mapIdx (fun i u =>
            UOp.mk .DEFINE_GLOBAL u.dtype [] (.idx (bs.length + i)))) := by
          rw [hf, List.mapIdx_cons]
          simp

/-- Claim C8 (amended): the lowering collects the BUFFER uops in
encounter order, the DEFINE_GLOBAL emitted for the `i`-th collected
buffer carries index `i`, and the ScheduleItem's `bufs` are the
collected concrete buffers with zero-size ones filtered out, preserving
order; when every collected buffer has nonzero size, `bufs[i]` is
exactly the buffer behind DefineGlobal `i`. -/
theorem si_bufs_indexed (xs : List UOp) (h : ∀ u ∈ xs, u.bufSize ≠ 0) :
    (lower_bufs xs).1 = xs ∧
    (∀ i : Nat, ((lower_bufs xs).2)[i]? =
      (xs[i]?).map (fun u => UOp.mk .DEFINE_GLOBAL u.dtype [] (.idx i))) ∧
    si_bufs (lower_bufs xs).1 = xs.map UOp.buffer := by
  have hs := lowerAux_spec xs [] []
  rw [lower_bufs, hs]
  refine ⟨by simp, ?_, ?_⟩
  · intro i
    simp only [List.nil_append]
    rw [mapIdx_getElem?]
    simp
  · simp only [List.nil_append, si_bufs]
    rw [List.filter_eq_self.mpr]
    intro u hu
    simpa using h u hu

/-- Claim C8 (counterexample): with a zero-size buffer collected first,
`bufs[0]` is the buffer of DefineGlobal 1, not the (zero-size) buffer
behind DefineGlobal 0: filtering shifts the correspondence. -/
theorem si_bufs_zero_size_shifts :
    (si_bufs (lower_bufs [bufU0, bufU1]).1)[0]? = some ⟨1, 4⟩ ∧
    ((lower_bufs [bufU0, bufU1]).1[0]?).map UOp.buffer = some ⟨0, 0⟩ ∧
    ((lower_bufs [bufU0, bufU1]).2)[0]? = some (UOp.mk .DEFINE_GLOBAL dtEx [] (.idx 0)) ∧
    (⟨1, 4⟩ : Buffer) ≠ ⟨0, 0⟩ :=
  ⟨rfl, rfl, rfl, by decide⟩

/-- Witness for claim C8: with two nonzero-size buffers, the collected
list, the DEFINE_GLOBAL at index 1, and the filtered `bufs` all line
up. -/
theorem si_bufs_indexed_witness :
    (lower_bufs [bufU1, bufU2]).1 = [bufU1, bufU2] ∧
    ((lower_bufs [bufU1, bufU2]).2)[1]? =
      (([bufU1, bufU2] : List UOp)[1]?).map
        (fun u => UOp.mk .DEFINE_GLOBAL u.dtype [] (.idx 1)) ∧
    si_bufs (lower_bufs [bufU1, bufU2]).1 = [bufU1, bufU2].map UOp.buffer := by
  have h := si_bufs_indexed [bufU1, bufU2] (by decide)
  exact ⟨h.1, h.2.1 1, h.2.2⟩

/-! Lemmas for the ScheduleItem input/output partition. -/

theorem length_filter_add_length_filter_not {α : Type} (l : List α) (p : α → Bool) :
    (l.filter p).length + (l.filter (fun a => !p a)).length = l.length := by
  induction l with
  | nil => rfl
  | cons a l ih =>
    by_cases h : p a <;> simp [List.filter_cons, h] <;> omega

theorem enum_getElem?_mem {α : Type} (l : List α) (i : Nat) (b : α)
    (h : l[i]? = some b) : (i, b) ∈ l.enum := by
  have : (l.enum)[i]? = some (i, b) := by
    rw [List.getElem?_enum, h]
    rfl
  exact List.getElem?_mem this

/-- Claim C10: `inputs` and `outputs` partition a ScheduleItem's
`bufs`: every buffer of `bufs` is in `outputs` when its position is
listed in `output_idxs` and in `inputs` otherwise; their lengths sum to
`bufs`; for duplicate-free `bufs` no buffer is in both; `outputs` is
exactly the set of buffers at the positions of `output_idxs`; and
`output_idxs` is the DefineGlobal arguments of the Sink's stores, or
`[0]` when the ast is not a Sink. -/
theorem scheduleitem_partition (si : ScheduleItem) :
    (∀ (i : Nat) (b : Buffer), si.bufs[i]? = some b →
      (i ∈ si.output_idxs → b ∈ si.outputs) ∧ (i ∉ si.output_idxs → b ∈ si.inputs)) ∧
    si.outputs.length + si.inputs.length = si.bufs.length ∧
    (si.bufs.Nodup → ∀ b : Buffer, ¬(b ∈ si.outputs ∧ b ∈ si.inputs)) ∧
    (∀ b : Buffer, b ∈ si.outputs ↔ ∃ i : Nat, i ∈ si.output_idxs ∧ si.bufs[i]? = some b) ∧
    (si.ast.op = .SINK →
      si.output_idxs = si.ast.src.map (fun x => (x.src.headD default).argIdx)) ∧
    (si.ast.op ≠ .SINK → si.output_idxs = [0]) := by
  refine ⟨?_, ?_, ?_, ?_, ?_, ?_⟩
  · intro i b h
    constructor
    · intro hi
      exact List.mem_map.mpr ⟨(i, b),
        List.mem_filter.mpr ⟨enum_getElem?_mem _ _ _ h, by simpa using hi⟩, rfl⟩
    · intro hi
      exact List.mem_map.mpr ⟨(i, b),
        List.mem_filter.mpr ⟨enum_getElem?_mem _ _ _ h, by simpa using hi⟩, rfl⟩
  · have := length_filter_add_length_filter_not si.bufs.enum
      (fun p => decide (p.1 ∈ si.output_idxs))
    rw [ScheduleItem.outputs, ScheduleItem.inputs]
    simp only [List.length_map]
    have hlen : si.bufs.enum.length = si.bufs.length := List.enum_length
    rw [← hlen]
    have hp : (fun p : Nat × Buffer => decide (p.1 ∉ si.output_idxs)) =
        (fun p : Nat × Buffer => !decide (p.1 ∈ si.output_idxs)) := by
      funext p
      simp [decide_not]
    rw [hp]
    exact this
  · intro hnd b hb
    obtain ⟨hbo, hbi⟩ := hb
    obtain ⟨⟨i, b1⟩, hmem1, hb1⟩ := List.mem_map.mp hbo
    obtain ⟨⟨j, b2⟩, hmem2, hb2⟩ := List.mem_map.mp hbi
    obtain ⟨he1, hp1⟩ := List.mem_filter.mp hmem1
    obtain ⟨he2, hp2⟩ := List.mem_filter.mp hmem2
    obtain ⟨hlt1, hg1⟩ := List.mem_enum he1
    obtain ⟨hlt2, hg2⟩ := List.mem_enum he2
    have hgi : si.bufs[i]? = some b := by
      rw [List.getElem?_eq_some]
      exact ⟨hlt1, by rw [← hg1]; exact hb1⟩
    have hgj : si.bufs[j]? = some b := by
      rw [List.getElem?_eq_some]
      exact ⟨hlt2, by rw [← hg2]; exact hb2⟩
    have hij : i = j := List.getElem?_inj hlt1 hnd (hgi.trans hgj.symm)
    subst hij
    simp only [decide_eq_true_eq] at hp1
    simp at hp2
    exact hp2 hp1
  · intro b
    constructor
    · intro hbo
      obtain ⟨⟨i, b1⟩, hmem, hb1⟩ := List.mem_map.mp hbo
      obtain ⟨he, hp⟩ := List.mem_filter.mp hmem
      obtain ⟨hlt, hg⟩ := List.mem_enum he
      refine ⟨i, by simpa using hp, ?_⟩
      rw [List.getElem?_eq_some]
      exact ⟨hlt, by rw [← hg]; exact hb1⟩
    · rintro ⟨i, hi, hg⟩
      exact List.mem_map.mpr ⟨(i, b),
        List.mem_filter.mpr ⟨enum_getElem?_mem _ _ _ hg, by simpa using hi⟩, rfl⟩
  · intro h
    rw [ScheduleItem.output_idxs, if_pos (by simp [h])]
  · intro h
    rw [ScheduleItem.output_idxs, if_neg (by simpa using h)]

/-- Witness for claim C10: on a concrete two-buffer kernel whose ast
stores DefineGlobal 1, the buffer `bC` at the listed position is an
output, `bA` is an input, and no buffer is in both. -/
theorem scheduleitem_partition_witness :
    (bC ∈ KConsumer.outputs) ∧ (bA ∈ KConsumer.inputs) ∧
    ¬(bA ∈ KConsumer.outputs ∧ bA ∈ KConsumer.inputs) := by
  have h := scheduleitem_partition KConsumer
  refine ⟨((h.1 1 bC rfl).1 (by decide)), ((h.1 0 bA rfl).2 (by decide)), ?_⟩
  exact h.2.2.1 (by decide) bA

/-! Lemmas about the ASSIGN check loop of `schedule_uop`. -/

theorem hasCyclePair_of_tail {x : UOp} {l : List UOp} (h : hasCyclePair l) :
    hasCyclePair (x :: l) := by
  obtain ⟨i, j, xi, xj, hij, hi, hj, hpi, hpj, hb⟩ := h
  exact ⟨i + 1, j + 1, xi, xj, by omega, by simpa using hi, by simpa using hj, hpi, hpj, hb⟩

theorem assignCheckLoop_cycle_error (F : STFuns) (sb : List UOp) (l : List UOp) :
    ∀ acc : List UOp,
      (∀ x ∈ l, x.op = .PRELOAD → preload_violates F sb x = false) →
      (hasCyclePair l ∨
        ∃ j : Nat, ∃ xj : UOp, l[j]? = some xj ∧ xj.op = .LOAD ∧ xj.bufUop ∈ acc) →
      assignCheckLoop F sb acc l = .error cycleMsg := by
  induction l with
  | nil =>
    intro acc _ hcond
    rcases hcond with ⟨i, j, xi, xj, _, hi, _⟩ | ⟨j, xj, hj, _⟩
    · simp at hi
    · simp at hj
  | cons x l ih =>
    intro acc hok hcond
    by_cases hc1 : (x.op == Ops.LOAD && acc.contains x.bufUop) = true
    · simp only [assignCheckLoop, hc1, if_true]
    · by_cases hc2 : (x.op == Ops.PRELOAD) = true
      · have hxp : x.op = Ops.PRELOAD := by simpa using hc2
        have hv : preload_violates F sb x = false := hok x (List.mem_cons_self x l) hxp
        have hrec : assignCheckLoop F sb acc (x :: l) =
            assignCheckLoop F sb (acc ++ [x.bufUop]) l := by
          simp only [assignCheckLoop, hc1, hc2, hv]
          simp
        rw [hrec]
        apply ih (acc ++ [x.bufUop]) (fun y hy => hok y (List.mem_cons_of_mem x hy))
        rcases hcond with ⟨i, j, xi, xj, hij, hi, hj, hpi, hpj, hb⟩ | ⟨j, xj, hj, hpj, hjb⟩
        · cases i with
          | zero =>
            right
            have hx : x = xi := by simpa using hi
            cases j with
            | zero => omega
            | succ n =>
              refine ⟨n, xj, by simpa using hj, hpj, ?_⟩
              have hbx : xj.bufUop = x.bufUop := by rw [hx]; exact hb.symm
              rw [hbx]
              exact List.mem_append_right _ (List.mem_singleton.mpr rfl)
          | succ m =>
            left
            cases j with
            | zero => omega
            | succ n =>
              exact ⟨m, n, xi, xj, by omega, by simpa using hi, by simpa using hj,
                hpi, hpj, hb⟩
        · right
          cases j with
          | zero =>
            have hx : x = xj := by simpa using hj
            rw [← hx, hxp] at hpj
            cases hpj
          | succ n =>
            exact ⟨n, xj, by simpa using hj, hpj, List.mem_append_left _ hjb⟩
      · have hrec : assignCheckLoop F sb acc (x :: l) = assignCheckLoop F sb acc l := by
          simp only [assignCheckLoop, hc1, hc2]
          simp
        rw [hrec]
        apply ih acc (fun y hy => hok y (List.mem_cons_of_mem x hy))
        rcases hcond with ⟨i, j, xi, xj, hij, hi, hj, hpi, hpj, hb⟩ | ⟨j, xj, hj, hpj, hjb⟩
        · cases i with
          | zero =>
            have hx : x = xi := by simpa using hi
            rw [← hx] at hpi
            exact absurd (by simpa using hpi) (by simpa using hc2)
          | succ m =>
            left
            cases j with
            | zero => omega
            | succ n =>
              exact ⟨m, n, xi, xj, by omega, by simpa using hi, by simpa using hj,
                hpi, hpj, hb⟩
        · right
          cases j with
          | zero =>
            have hx : x = xj := by simpa using hj
            exfalso
            apply hc1
            have h1 : (x.op == Ops.LOAD) = true := by
              rw [hx]
              simp [hpj]
            have h2 : acc.contains x.bufUop = true := by
              rw [hx]
              exact (contains_eq_true_iff acc xj.bufUop).mpr hjb
            rw [h1, h2]
            rfl
          | succ n =>
            exact ⟨n, xj, by simpa using hj, hpj, hjb⟩

/-- Claim C3: when the schedule context contains at least one
assignment, a LOAD of a buffer that is also collected in the kernel's
`assign_preloads` (a PRELOAD of it occurs earlier in the reversed
toposort) makes `schedule_uop` fail with the assign-cycle error, so no
ScheduleItem is returned.  (The preloads are assumed not to trip the
contiguity error first, which would abort with the other message.) -/
theorem schedule_uop_assign_cycle (F : STFuns) (assigns sb l : List UOp) (ast : UOp)
    (cb : List UOp) (md : List Nat)
    (hne : assigns ≠ [])
    (hok : ∀ x ∈ l, x.op = .PRELOAD → preload_violates F sb x = false)
    (hpair : hasCyclePair l) :
    schedule_uop_checked F assigns sb l ast cb md = .error cycleMsg := by
  have hemp : assigns.isEmpty = false := by
    cases assigns with
    | nil => exact absurd rfl hne
    | cons a t => rfl
  rw [schedule_uop_checked, hemp]
  rw [assignCheckLoop_cycle_error F sb l [] hok (Or.inl hpair)]
  rfl

/-- Witness for claim C3: a two-node reversed toposort `[Preload b,
Load b]` with a nonempty assigns set fails with the cycle error. -/
theorem schedule_uop_assign_cycle_witness :
    schedule_uop_checked stFunsTrivial [bufB] [] [plEx, ldEx] astEx [] [] =
      .error cycleMsg :=
  schedule_uop_assign_cycle stFunsTrivial [bufB] [] [plEx, ldEx] astEx [] []
    (by decide) (by decide)
    ⟨0, 1, plEx, ldEx, by omega, rfl, rfl, rfl, rfl, rfl⟩

theorem assignCheckLoop_ok_preloads (F : STFuns) (sb : List UOp) (l : List UOp) :
    ∀ (acc aps : List UOp), assignCheckLoop F sb acc l = .ok aps →
      ∀ x ∈ l, x.op = .PRELOAD → x.bufUop ∈ sb → preload_cond_ok F x.stArg = true := by
  induction l with
  | nil => intro _ _ _ x hx; simp at hx
  | cons y l ih =>
    intro acc aps hrun x hx hxp hxs
    by_cases hc1 : (y.op == Ops.LOAD && acc.contains y.bufUop) = true
    · rw [assignCheckLoop, if_pos hc1] at hrun
      cases hrun
    · by_cases hc2 : (y.op == Ops.PRELOAD) = true
      · by_cases hv : preload_violates F sb y = true
        · rw [assignCheckLoop, if_neg hc1] at hrun
          simp only [hc2, if_true, hv, if_true] at hrun
          cases hrun
        · have hv' : preload_violates F sb y = false := eq_false_of_ne_true hv
          have hrec : assignCheckLoop F sb acc (y :: l) =
              assignCheckLoop F sb (acc ++ [y.bufUop]) l := by
            simp only [assignCheckLoop, hc1, hc2, hv']
            simp
          rw [hrec] at hrun
          rcases List.mem_cons.mp hx with rfl | hxl
          · rw [preload_violates] at hv'
            have hsb : sb.contains x.bufUop = true :=
              (contains_eq_true_iff sb x.bufUop).mpr hxs
            simp only [hsb, Bool.true_and, Bool.not_eq_true'] at hv'
            simpa using hv'
          · exact ih (acc ++ [y.bufUop]) aps hrun x hxl hxp hxs
      · have hrec : assignCheckLoop F sb acc (y :: l) = assignCheckLoop F sb acc l := by
          simp only [assignCheckLoop, hc1, hc2]
          simp
        rw [hrec] at hrun
        rcases List.mem_cons.mp hx with rfl | hxl
        · exact absurd (by simpa using hxp) (by simpa using hc2)
        · exact ih acc aps hrun x hxl hxp hxs

theorem assignCheckLoop_self_error (F : STFuns) (sb : List UOp) (l : List UOp) :
    ∀ acc : List UOp,
      (∀ (j : Nat) (xj : UOp), l[j]? = some xj → xj.op = .LOAD → xj.bufUop ∉ acc) →
      ¬hasCyclePair l →
      (∃ x ∈ l, x.op = .PRELOAD ∧ preload_violates F sb x = true) →
      assignCheckLoop F sb acc l = .error selfAssignMsg := by
  induction l with
  | nil =>
    intro _ _ _ hex
    obtain ⟨x, hx, _⟩ := hex
    simp at hx
  | cons y l ih =>
    intro acc hacc hnp hex
    have hc1 : ¬(y.op == Ops.LOAD && acc.contains y.bufUop) = true := by
      intro hc
      rw [Bool.and_eq_true] at hc
      obtain ⟨h1, h2⟩ := hc
      exact hacc 0 y List.getElem?_cons_zero (by simpa using h1)
        ((contains_eq_true_iff acc y.bufUop).mp h2)
    by_cases hc2 : (y.op == Ops.PRELOAD) = true
    · by_cases hv : preload_violates F sb y = true
      · rw [assignCheckLoop, if_neg hc1]
        simp only [hc2, if_true, hv, if_true]
      · have hv' : preload_violates F sb y = false := eq_false_of_ne_true hv
        have hrec : assignCheckLoop F sb acc (y :: l) =
            assignCheckLoop F sb (acc ++ [y.bufUop]) l := by
          simp only [assignCheckLoop, hc1, hc2, hv']
          simp
        rw [hrec]
        apply ih (acc ++ [y.bufUop])
        · intro j xj hj hxl hmem
          rcases List.mem_append.mp hmem with hm | hm
          · exact hacc (j + 1) xj (by simpa using hj) hxl hm
          · apply hnp
            exact ⟨0, j + 1, y, xj, by omega, List.getElem?_cons_zero, by simpa using hj,
              by simpa using hc2, hxl, Eq.symm (by simpa using hm)⟩
        · intro hp
          exact hnp (hasCyclePair_of_tail hp)
        · obtain ⟨x, hx, hxp, hxv⟩ := hex
          rcases List.mem_cons.mp hx with rfl | hxl
          · exact absurd hxv (by simp [eq_false_of_ne_true hv])
          · exact ⟨x, hxl, hxp, hxv⟩
    · have hrec : assignCheckLoop F sb acc (y :: l) = assignCheckLoop F sb acc l := by
        simp only [assignCheckLoop, hc1, hc2]
        simp
      rw [hrec]
      apply ih acc
      · intro j xj hj hxl hmem
        exact hacc (j + 1) xj (by simpa using hj) hxl hmem
      · intro hp
        exact hnp (hasCyclePair_of_tail hp)
      · obtain ⟨x, hx, hxp, hxv⟩ := hex
        rcases List.mem_cons.mp hx with rfl | hxl
        · exact absurd (by simpa using hxp) (by simpa using hc2)
        · exact ⟨x, hxl, hxp, hxv⟩

/-- Claim C4: with at least one assignment in the context, lowering
succeeds only if every PRELOAD of a buffer the same kernel stores goes
through a contiguous view, or a single view whose mask `m` satisfies
that shrinking a fresh contiguous tracker of the same shape by `m`
equals shrinking the view by `m`; in every other case the call fails
with the non-contiguous self-assign error (assuming no assign-cycle
configuration aborts with the cycle error first). -/
theorem schedule_uop_self_assign (F : STFuns) (assigns sb l : List UOp) (ast : UOp)
    (cb : List UOp) (md : List Nat) (hne : assigns ≠ []) :
    (∀ si : ScheduleItem, schedule_uop_checked F assigns sb l ast cb md = .ok si →
      ∀ x ∈ l, x.op = .PRELOAD → x.bufUop ∈ sb → preload_cond_ok F x.stArg = true) ∧
    (¬hasCyclePair l →
      (∃ x ∈ l, x.op = .PRELOAD ∧ x.bufUop ∈ sb ∧ preload_cond_ok F x.stArg = false) →
      schedule_uop_checked F assigns sb l ast cb md = .error selfAssignMsg) := by
  have hemp : assigns.isEmpty = false := by
    cases assigns with
    | nil => exact absurd rfl hne
    | cons a t => rfl
  constructor
  · intro si hok
    rw [schedule_uop_checked, hemp] at hok
    cases hrun : assignCheckLoop F sb [] l with
    | error e =>
      rw [hrun] at hok
      simp at hok
    | ok aps =>
      exact assignCheckLoop_ok_preloads F sb l [] aps hrun
  · intro hnp hex
    rw [schedule_uop_checked, hemp]
    have hv : ∃ x ∈ l, x.op = .PRELOAD ∧ preload_violates F sb x = true := by
      obtain ⟨x, hx, hp, hs, hc⟩ := hex
      refine ⟨x, hx, hp, ?_⟩
      rw [preload_violates]
      have hsb : sb.contains x.bufUop = true := (contains_eq_true_iff sb x.bufUop).mpr hs
      rw [hsb, hc]
      rfl
    rw [assignCheckLoop_self_error F sb l []
      (by intro j xj _ _ h; simp at h) hnp hv]
    rfl

/-- Witness for claim C4: a PRELOAD through a two-view non-contiguous
tracker of a buffer the kernel also stores fails with the self-assign
error. -/
theorem schedule_uop_self_assign_witness :
    schedule_uop_checked stFunsStrict [bufB] [bufB] [plBad] astEx [] [] =
      .error selfAssignMsg := by
  apply (schedule_uop_self_assign stFunsStrict [bufB] [bufB] [plBad] astEx [] []
    (by decide)).2
  · intro h
    obtain ⟨i, j, xi, xj, hij, hi, hj, hpi, hpj, hb⟩ := h
    cases j with
    | zero => omega
    | succ n => simp at hj
  · exact ⟨plBad, List.mem_singleton.mpr rfl, rfl, by decide, by rfl⟩

/-! Lemmas for the BFS toposort (Kahn's algorithm as the source runs
it). -/

section KahnProofs

variable {V : Type} [DecidableEq V]

theorem degGet_cons (p : V × Int) (d : List (V × Int)) (w : V) :
    degGet (p :: d) w = if p.1 = w then p.2 else degGet d w := by
  by_cases h : p.1 = w <;> simp [degGet, List.find?_cons, h]

theorem degDec_cons (p : V × Int) (d : List (V × Int)) (v : V) :
    degDec (p :: d) v = (if p.1 = v then (p.1, p.2 - 1) else p) :: degDec d v := by
  by_cases h : p.1 = v <;> simp [degDec, h]

theorem degDec_fst (d : List (V × Int)) (v : V) :
    (degDec d v).map Prod.fst = d.map Prod.fst := by
  induction d with
  | nil => rfl
  | cons p d ih =>
    rw [degDec_cons]
    by_cases h : p.1 = v <;> simp [h, ih]

theorem degGet_degDec_ne (d : List (V × Int)) (v w : V) (h : w ≠ v) :
    degGet (degDec d v) w = degGet d w := by
  induction d with
  | nil => rfl
  | cons p d ih =>
    rw [degDec_cons]
    by_cases hp : p.1 = v
    · rw [if_pos hp, degGet_cons, degGet_cons]
      rw [if_neg (by rw [hp]; exact Ne.symm h), if_neg (by rw [hp]; exact Ne.symm h)]
      exact ih
    · rw [if_neg hp, degGet_cons, degGet_cons]
      by_cases hw : p.1 = w
      · rw [if_pos hw, if_pos hw]
      · rw [if_neg hw, if_neg hw]
        exact ih

theorem degGet_degDec_self (d : List (V × Int)) (v : V) (h : v ∈ d.map Prod.fst) :
    degGet (degDec d v) v = degGet d v - 1 := by
  induction d with
  | nil => simp at h
  | cons p d ih =>
    rw [degDec_cons]
    by_cases hp : p.1 = v
    · rw [if_pos hp, degGet_cons, degGet_cons, if_pos hp, if_pos hp]
    · rw [if_neg hp, degGet_cons, degGet_cons, if_neg hp, if_neg hp]
      apply ih
      rw [List.map_cons] at h
      rcases List.mem_cons.mp h with h1 | h1
      · exact absurd h1.symm hp
      · exact h1

theorem relax_pair (d : List (V × Int)) (v : V) (vs : List V) :
    (relax d (v :: vs)).1 = (relax (degDec d v) vs).1 ∧
    (relax d (v :: vs)).2 = (if degGet (degDec d v) v == 0
      then v :: (relax (degDec d v) vs).2 else (relax (degDec d v) vs).2) := by
  rw [relax]
  split <;> simp_all

theorem degDec_keys_sub (d : List (V × Int)) (v : V) (vs : List V)
    (hvs : ∀ x ∈ v :: vs, x ∈ d.map Prod.fst) :
    ∀ x ∈ vs, x ∈ (degDec d v).map Prod.fst := by
  intro x hx
  rw [degDec_fst]
  exact hvs x (List.mem_cons_of_mem v hx)

theorem relax_fst (vs : List V) : ∀ d : List (V × Int),
    (relax d vs).1.map Prod.fst = d.map Prod.fst := by
  induction vs with
  | nil => intro d; rfl
  | cons v vs ih =>
    intro d
    rw [(relax_pair d v vs).1, ih (degDec d v), degDec_fst]

theorem relax_deg (vs : List V) : ∀ d : List (V × Int),
    (∀ v ∈ vs, v ∈ d.map Prod.fst) → ∀ w : V,
    degGet (relax d vs).1 w = degGet d w - (vs.count w : Int) := by
  induction vs with
  | nil => intro d _ w; simp [relax]
  | cons v vs ih =>
    intro d hvs w
    rw [(relax_pair d v vs).1, ih (degDec d v) (degDec_keys_sub d v vs hvs) w]
    by_cases hw : w = v
    · subst hw
      rw [degGet_degDec_self d w (hvs w (List.mem_cons_self w vs)), List.count_cons]
      simp only [beq_self_eq_true, if_true]
      push_cast
      omega
    · rw [degGet_degDec_ne d v w hw, List.count_cons]
      have : (v == w) = false := by
        simp [Ne.symm hw]
      rw [this]
      simp

theorem relax_newly (vs : List V) : ∀ d : List (V × Int),
    (∀ v ∈ vs, v ∈ d.map Prod.fst) → ∀ w : V, w ∈ (relax d vs).2 →
    w ∈ vs ∧ 1 ≤ degGet d w := by
  induction vs with
  | nil => intro d _ w h; simp [relax] at h
  | cons v vs ih =>
    intro d hvs w h
    rw [(relax_pair d v vs).2] at h
    have hkeys := degDec_keys_sub d v vs hvs
    by_cases hc : (degGet (degDec d v) v == 0) = true
    · rw [if_pos hc] at h
      rcases List.mem_cons.mp h with rfl | h2
      · refine ⟨List.mem_cons_self w vs, ?_⟩
        have h0 : degGet (degDec d w) w = 0 := by simpa using hc
        have hself := degGet_degDec_self d w (hvs w (List.mem_cons_self w vs))
        omega
      · obtain ⟨hm, hd⟩ := ih (degDec d v) hkeys w h2
        refine ⟨List.mem_cons_of_mem v hm, ?_⟩
        by_cases hw : w = v
        · subst hw
          have hself := degGet_degDec_self d w (hvs w (List.mem_cons_self w vs))
          omega
        · rw [degGet_degDec_ne d v w hw] at hd
          exact hd
    · rw [if_neg hc] at h
      obtain ⟨hm, hd⟩ := ih (degDec d v) hkeys w h
      refine ⟨List.mem_cons_of_mem v hm, ?_⟩
      by_cases hw : w = v
      · subst hw
        have hself := degGet_degDec_self d w (hvs w (List.mem_cons_self w vs))
        omega
      · rw [degGet_degDec_ne d v w hw] at hd
        exact hd

theorem relax_newly_final (vs : List V) : ∀ d : List (V × Int),
    (∀ v ∈ vs, v ∈ d.map Prod.fst) → ∀ w : V, w ∈ (relax d vs).2 →
    degGet (relax d vs).1 w ≤ 0 := by
  induction vs with
  | nil => intro d _ w h; simp [relax] at h
  | cons v vs ih =>
    intro d hvs w h
    rw [(relax_pair d v vs).2] at h
    rw [(relax_pair d v vs).1]
    have hkeys := degDec_keys_sub d v vs hvs
    by_cases hc : (degGet (degDec d v) v == 0) = true
    · rw [if_pos hc] at h
      rcases List.mem_cons.mp h with rfl | h2
      · rw [relax_deg vs (degDec d w) hkeys w]
        have h0 : degGet (degDec d w) w = 0 := by simpa using hc
        omega
      · exact ih (degDec d v) hkeys w h2
    · rw [if_neg hc] at h
      exact ih (degDec d v) hkeys w h

theorem relax_newly_nodup (vs : List V) : ∀ d : List (V × Int),
    (∀ v ∈ vs, v ∈ d.map Prod.fst) → (relax d vs).2.Nodup := by
  induction vs with
  | nil => intro d _; simp [relax]
  | cons v vs ih =>
    intro d hvs
    rw [(relax_pair d v vs).2]
    have hkeys := degDec_keys_sub d v vs hvs
    by_cases hc : (degGet (degDec d v) v == 0) = true
    · rw [if_pos hc]
      refine List.nodup_cons.mpr ⟨?_, ih (degDec d v) hkeys⟩
      intro hmem
      have h1 := (relax_newly vs (degDec d v) hkeys v hmem).2
      have h0 : degGet (degDec d v) v = 0 := by simpa using hc
      omega
    · rw [if_neg hc]
      exact ih (degDec d v) hkeys

theorem adj_cons (e : V × V) (edges : List (V × V)) (u : V) :
    adj (e :: edges) u = if e.1 = u then e.2 :: adj edges u else adj edges u := by
  by_cases h : e.1 = u <;> simp [adj, List.filter_cons, h]

theorem countIn_cons (e : V × V) (edges : List (V × V)) (out : List V) (w : V) :
    countIn (e :: edges) out w =
      countIn edges out w + (if e.2 = w ∧ e.1 ∉ out then 1 else 0) := by
  rw [countIn, List.countP_cons, countIn]
  congr 1
  by_cases h2 : e.2 = w <;> by_cases h1 : e.1 ∈ out <;>
    simp [h2, h1, contains_eq_true_iff]

theorem countIn_step (edges : List (V × V)) (out : List V) (u w : V) (hu : u ∉ out) :
    countIn edges out w = countIn edges (out ++ [u]) w + (adj edges u).count w := by
  induction edges with
  | nil => simp [countIn, adj]
  | cons e edges ih =>
    rw [countIn_cons, countIn_cons, adj_cons]
    by_cases h1 : e.1 = u
    · rw [if_pos h1, List.count_cons]
      have hB : ¬(e.2 = w ∧ e.1 ∉ out ++ [u]) := by
        rintro ⟨_, hc⟩
        exact hc (by rw [h1]; exact List.mem_append_right out (List.mem_singleton.mpr rfl))
      rw [if_neg hB]
      by_cases h2 : e.2 = w
      · have hA : e.2 = w ∧ e.1 ∉ out := ⟨h2, by rw [h1]; exact hu⟩
        rw [if_pos hA]
        have hbe : (e.2 == w) = true := by simp [h2]
        rw [hbe]
        simp only [if_true]
        omega
      · have hA : ¬(e.2 = w ∧ e.1 ∉ out) := by rintro ⟨hc, _⟩; exact h2 hc
        rw [if_neg hA]
        have hbe : (e.2 == w) = false := by simp [h2]
        rw [hbe]
        simp only [Bool.false_eq_true, if_false]
        omega
    · rw [if_neg h1]
      have hAB : e.1 ∉ out ↔ e.1 ∉ out ++ [u] := by
        constructor
        · intro hn hc
          rcases List.mem_append.mp hc with hc1 | hc1
          · exact hn hc1
          · exact h1 (List.mem_singleton.mp hc1)
        · intro hn hc
          exact hn (List.mem_append_left _ hc)
      by_cases h2 : e.2 = w
      · by_cases h3 : e.1 ∈ out
        · rw [if_neg (by rintro ⟨_, hc⟩; exact hc h3),
            if_neg (by rintro ⟨_, hc⟩; exact hc (List.mem_append_left _ h3))]
          omega
        · rw [if_pos ⟨h2, h3⟩, if_pos ⟨h2, hAB.mp h3⟩]
          omega
      · rw [if_neg (by rintro ⟨hc, _⟩; exact h2 hc),
          if_neg (by rintro ⟨hc, _⟩; exact h2 hc)]
        omega

theorem countIn_eq_zero_of_closed (edges : List (V × V)) (out : List V) (w : V)
    (h : ∀ e ∈ edges, e.2 = w → e.1 ∈ out) : countIn edges out w = 0 := by
  rw [countIn, List.countP_eq_zero]
  intro e he hc
  rw [Bool.and_eq_true] at hc
  obtain ⟨h2, h1⟩ := hc
  have h2' : e.2 = w := by simpa using h2
  have := h e he h2'
  rw [Bool.not_eq_true', Bool.eq_false_iff] at h1
  exact h1 ((contains_eq_true_iff out e.1).mpr this)

theorem countIn_zero_closed (edges : List (V × V)) (out : List V) (w : V)
    (h : countIn edges out w = 0) : ∀ e ∈ edges, e.2 = w → e.1 ∈ out := by
  intro e he h2
  rw [countIn, List.countP_eq_zero] at h
  have := h e he
  by_cases hc : e.1 ∈ out
  · exact hc
  · exfalso
    apply this
    have hb2 : (e.2 == w) = true := by simp [h2]
    have hb1 : out.contains e.1 = false := by
      rw [Bool.eq_false_iff]
      intro hcc
      exact hc ((contains_eq_true_iff out e.1).mp hcc)
    rw [hb2, hb1]
    rfl

theorem kahn_step (edges : List (V × V)) (verts : List V)
    (hE : ∀ e ∈ edges, e.1 ∈ verts ∧ e.2 ∈ verts)
    (deg : List (V × Int)) (u : V) (qs out : List V)
    (hinv : kahnInv edges verts deg (u :: qs) out) :
    kahnInv edges verts (relax deg (adj edges u)).1
      (qs ++ (relax deg (adj edges u)).2) (out ++ [u]) := by
  obtain ⟨hnd, hov, hqv, hkeys, hdeg, hq, hord⟩ := hinv
  have huq : u ∈ u :: qs := List.mem_cons_self u qs
  have huv : u ∈ verts := hqv u huq
  have hadjkeys : ∀ v ∈ adj edges u, v ∈ deg.map Prod.fst := by
    intro v hv
    rw [hkeys]
    obtain ⟨e, hef, rfl⟩ := List.mem_map.mp hv
    exact (hE e (List.mem_filter.mp hef).1).2
  have hu_not_out : u ∉ out := by
    intro hc
    exact List.disjoint_of_nodup_append hnd hc huq
  have hdeg' : ∀ w : V, degGet (relax deg (adj edges u)).1 w =
      (countIn edges (out ++ [u]) w : Int) := by
    intro w
    rw [relax_deg _ _ hadjkeys w, hdeg w, countIn_step edges out u w hu_not_out]
    push_cast
    ring
  have hout_closed : ∀ w ∈ out, ∀ e ∈ edges, e.2 = w → e.1 ∈ out := by
    intro w hw e he h2
    obtain ⟨i, hi⟩ := List.mem_iff_getElem?.mp hw
    obtain ⟨j, hj, hjg⟩ := hord e he i (by rw [hi, h2])
    exact List.getElem?_mem hjg
  have hnewly : ∀ w ∈ (relax deg (adj edges u)).2,
      w ∈ verts ∧ w ∉ out ∧ w ∉ u :: qs := by
    intro w hw
    obtain ⟨hmem, hpos⟩ := relax_newly _ _ hadjkeys w hw
    obtain ⟨e, hef, rfl⟩ := List.mem_map.mp hmem
    have hev : e.2 ∈ verts := (hE e (List.mem_filter.mp hef).1).2
    have hposc : 0 < countIn edges out e.2 := by
      have := hdeg e.2
      omega
    refine ⟨hev, ?_, ?_⟩
    · intro hc
      have h0 := countIn_eq_zero_of_closed edges out e.2 (hout_closed e.2 hc)
      omega
    · intro hc
      have h0 := countIn_eq_zero_of_closed edges out e.2 (fun e' he' h2' => hq e.2 hc e' he' h2')
      omega
  refine ⟨?_, ?_, ?_, ?_, hdeg', ?_, ?_⟩
  · have hnd' : ((out ++ [u]) ++ qs).Nodup := by
      rw [← List.append_cons]
      exact hnd
    rw [← List.append_assoc]
    rw [List.nodup_append]
    refine ⟨hnd', relax_newly_nodup _ _ hadjkeys, ?_⟩
    intro w hw hw2
    obtain ⟨_, hno, hnq⟩ := hnewly w hw2
    rcases List.mem_append.mp hw with h1 | h1
    · rcases List.mem_append.mp h1 with h2 | h2
      · exact hno h2
      · apply hnq
        rw [List.mem_singleton.mp h2]
        exact List.mem_cons_self u qs
    · exact hnq (List.mem_cons_of_mem u h1)
  · intro v hv
    rcases List.mem_append.mp hv with h1 | h1
    · exact hov v h1
    · rw [List.mem_singleton.mp h1]
      exact huv
  · intro v hv
    rcases List.mem_append.mp hv with h1 | h1
    · exact hqv v (List.mem_cons_of_mem u h1)
    · exact (hnewly v h1).1
  · rw [relax_fst]
    exact hkeys
  · intro v hv e he h2
    rcases List.mem_append.mp hv with h1 | h1
    · exact List.mem_append_left _ (hq v (List.mem_cons_of_mem u h1) e he h2)
    · have hfin := relax_newly_final _ _ hadjkeys v h1
      rw [hdeg' v] at hfin
      have h0 : countIn edges (out ++ [u]) v = 0 := by omega
      exact countIn_zero_closed edges (out ++ [u]) v h0 e he h2
  · intro e he i hi
    by_cases hlt : i < out.length
    · rw [List.getElem?_append, if_pos hlt] at hi
      obtain ⟨j, hj, hjg⟩ := hord e he i hi
      refine ⟨j, hj, ?_⟩
      rw [List.getElem?_append, if_pos (by omega)]
      exact hjg
    · rw [List.getElem?_append_right (by omega)] at hi
      have hi0 : i - out.length = 0 := by
        by_contra hc
        have : ([u] : List V)[i - out.length]? = none := by
          rw [List.getElem?_eq_none]
          simp
          omega
        rw [this] at hi
        cases hi
      rw [hi0] at hi
      have hu2 : e.2 = u := by
        have : some u = some e.2 := by rw [← hi]; rfl
        exact (Option.some_inj.mp this).symm
      have h1 : e.1 ∈ out := hq u huq e he hu2
      obtain ⟨j, hj⟩ := List.mem_iff_getElem?.mp h1
      have hjlen : j < out.length := by
        by_contra hc
        rw [List.getElem?_eq_none (by omega)] at hj
        cases hj
      refine ⟨j, by omega, ?_⟩
      rw [List.getElem?_append, if_pos hjlen]
      exact hj

theorem degGet_init (verts : List V) (f : V → Int) (w : V) :
    degGet (verts.map (fun v => (v, f v))) w = if w ∈ verts then f w else 0 := by
  induction verts with
  | nil => simp [degGet]
  | cons v verts ih =>
    rw [List.map_cons, degGet_cons]
    by_cases h : v = w
    · subst h
      rw [if_pos rfl, if_pos (List.mem_cons_self v verts)]
    · rw [if_neg h, ih]
      by_cases h2 : w ∈ verts
      · rw [if_pos h2, if_pos (List.mem_cons_of_mem v h2)]
      · rw [if_neg h2, if_neg (by
          intro hc
          rcases List.mem_cons.mp hc with hc1 | hc1
          · exact h hc1.symm
          · exact h2 hc1)]

theorem bfs_sound (edges : List (V × V)) (verts : List V)
    (hE : ∀ e ∈ edges, e.1 ∈ verts ∧ e.2 ∈ verts) :
    ∀ (fuel : Nat) (deg : List (V × Int)) (queue out : List V),
      kahnInv edges verts deg queue out →
      (bfs (adj edges) fuel deg queue out).Nodup ∧
      (∀ v ∈ bfs (adj edges) fuel deg queue out, v ∈ verts) ∧
      (∀ e ∈ edges, ∀ i : Nat, (bfs (adj edges) fuel deg queue out)[i]? = some e.2 →
        ∃ j : Nat, j < i ∧ (bfs (adj edges) fuel deg queue out)[j]? = some e.1) := by
  intro fuel
  induction fuel with
  | zero =>
    intro deg queue out hinv
    obtain ⟨hnd, hov, _, _, _, _, hord⟩ := hinv
    exact ⟨(List.nodup_append.mp hnd).1, hov, hord⟩
  | succ fuel ih =>
    intro deg queue out hinv
    cases queue with
    | nil =>
      obtain ⟨hnd, hov, _, _, _, _, hord⟩ := hinv
      exact ⟨(List.nodup_append.mp hnd).1, hov, hord⟩
    | cons u qs =>
      have hstep := kahn_step edges verts hE deg u qs out hinv
      have heq : bfs (adj edges) (fuel + 1) deg (u :: qs) out =
          bfs (adj edges) fuel (relax deg (adj edges u)).1
            (qs ++ (relax deg (adj edges u)).2) (out ++ [u]) := rfl
      rw [heq]
      exact ih _ _ _ hstep

theorem kahnRun_sound (verts : List V) (edges : List (V × V))
    (hv : verts.Nodup) (hE : ∀ e ∈ edges, e.1 ∈ verts ∧ e.2 ∈ verts) :
    (kahnRun verts edges).Nodup ∧
    (∀ v ∈ kahnRun verts edges, v ∈ verts) ∧
    (∀ e ∈ edges, ∀ i : Nat, (kahnRun verts edges)[i]? = some e.2 →
      ∃ j : Nat, j < i ∧ (kahnRun verts edges)[j]? = some e.1) := by
  have hdeg0 : ∀ w : V,
      degGet (verts.map (fun v => (v, (countIn edges [] v : Int)))) w =
        (countIn edges [] w : Int) := by
    intro w
    rw [degGet_init]
    by_cases hw : w ∈ verts
    · rw [if_pos hw]
    · rw [if_neg hw]
      have h0 : countIn edges [] w = 0 := by
        rw [countIn, List.countP_eq_zero]
        intro e he hc
        rw [Bool.and_eq_true] at hc
        have h2 : e.2 = w := by simpa using hc.1
        exact hw (h2 ▸ (hE e he).2)
      rw [h0]
      rfl
  have hinv : kahnInv edges verts
      (verts.map (fun v => (v, (countIn edges [] v : Int))))
      (verts.filter (fun v =>
        degGet (verts.map (fun v => (v, (countIn edges [] v : Int)))) v == 0)) [] := by
    refine ⟨?_, ?_, ?_, ?_, hdeg0, ?_, ?_⟩
    · simpa using hv.filter _
    · intro v hv2
      simp at hv2
    · intro v hv2
      exact (List.mem_filter.mp hv2).1
    · rw [List.map_map]
      have hcomp : Prod.fst ∘ (fun v : V => (v, (countIn edges [] v : Int))) = id := rfl
      rw [hcomp, List.map_id]
    · intro v hvq e he h2
      have h0 : degGet (verts.map (fun v => (v, (countIn edges [] v : Int)))) v = 0 := by
        have := (List.mem_filter.mp hvq).2
        simpa using this
      rw [hdeg0 v] at h0
      have hz : countIn edges [] v = 0 := by omega
      exact countIn_zero_closed edges [] v hz e he h2
    · intro e _ i hi
      rw [List.getElem?_eq_none (Nat.zero_le i)] at hi
      cases hi
  exact bfs_sound edges verts hE verts.length _ _ _ hinv

theorem sched_complete (verts sched : List V) (hv : verts.Nodup)
    (hs : sched.Nodup) (hsub : ∀ v ∈ sched, v ∈ verts)
    (hlen : sched.length = verts.length) : ∀ v ∈ verts, v ∈ sched := by
  intro v hvm
  have h1 : sched.toFinset ⊆ verts.toFinset := by
    intro a ha
    exact List.mem_toFinset.mpr (hsub a (List.mem_toFinset.mp ha))
  have h2 : verts.toFinset.card ≤ sched.toFinset.card := by
    rw [List.toFinset_card_of_nodup hs, List.toFinset_card_of_nodup hv, hlen]
  have h3 : sched.toFinset = verts.toFinset := Finset.eq_of_subset_of_card_le h1 h2
  have h4 : v ∈ verts.toFinset := List.mem_toFinset.mpr hvm
  rw [← h3] at h4
  exact List.mem_toFinset.mp h4

end KahnProofs

/-! Membership characterizations for the assembly's edge construction. -/

theorem dedupAcc_mem {α : Type} [DecidableEq α] (l : List α) :
    ∀ (seen : List α) (a : α), a ∈ dedupAcc seen l ↔ a ∈ l ∧ a ∉ seen := by
  induction l with
  | nil => intro seen a; simp [dedupAcc]
  | cons x l ih =>
    intro seen a
    rw [dedupAcc]
    by_cases hx : x ∈ seen
    · rw [if_pos hx, ih]
      constructor
      · rintro ⟨h1, h2⟩
        exact ⟨List.mem_cons_of_mem x h1, h2⟩
      · rintro ⟨h1, h2⟩
        rcases List.mem_cons.mp h1 with rfl | h1
        · exact absurd hx h2
        · exact ⟨h1, h2⟩
    · rw [if_neg hx]
      constructor
      · intro h
        rcases List.mem_cons.mp h with rfl | h1
        · exact ⟨List.mem_cons_self a l, hx⟩
        · obtain ⟨h2, h3⟩ := (ih (x :: seen) a).mp h1
          refine ⟨List.mem_cons_of_mem x h2, ?_⟩
          intro hc
          exact h3 (List.mem_cons_of_mem x hc)
      · rintro ⟨h1, h2⟩
        rcases List.mem_cons.mp h1 with rfl | h1
        · exact List.mem_cons_self a _
        · by_cases hax : a = x
          · subst hax
            exact List.mem_cons_self a _
          · apply List.mem_cons_of_mem
            rw [ih (x :: seen) a]
            refine ⟨h1, ?_⟩
            intro hc
            rcases List.mem_cons.mp hc with hc1 | hc1
            · exact hax hc1
            · exact h2 hc1

theorem dedup_mem {α : Type} [DecidableEq α] (l : List α) (a : α) :
    a ∈ dedup l ↔ a ∈ l := by
  rw [dedup, dedupAcc_mem]
  simp

theorem lookupTarget_mem (pres : List ScheduleItem) (b : Buffer) (t : ScheduleItem)
    (h : lookupTarget pres b = some t) : t ∈ pres ∧ b ∈ t.outputs := by
  rw [lookupTarget] at h
  have ht := List.mem_of_mem_getLast? h
  have := List.mem_filter.mp ht
  exact ⟨this.1, by simpa using this.2⟩

theorem lookupTarget_unique (pres : List ScheduleItem) (b : Buffer) (t : ScheduleItem)
    (huw : uniqueWriter pres) (ht : t ∈ pres) (hb : b ∈ t.outputs) :
    lookupTarget pres b = some t := by
  rw [lookupTarget]
  have htf : t ∈ pres.filter (fun si => decide (b ∈ si.outputs)) :=
    List.mem_filter.mpr ⟨ht, by simpa using hb⟩
  cases hlast : (pres.filter (fun si => decide (b ∈ si.outputs))).getLast? with
  | none =>
    rw [List.getLast?_eq_none_iff] at hlast
    rw [hlast] at htf
    cases htf
  | some t2 =>
    have ht2 := List.mem_filter.mp (List.mem_of_mem_getLast? hlast)
    have hb2 : b ∈ t2.outputs := by simpa using ht2.2
    by_cases he : t = t2
    · rw [he]
    · exact absurd hb2 (huw t ht t2 ht2.1 he b hb)

theorem pa_mem (pres : List ScheduleItem) (si a : ScheduleItem) :
    a ∈ parentsAssigns pres si ↔
      ∃ x ∈ si.assign_preloads, lookupTarget pres x.buffer = some a ∧ a ≠ si := by
  rw [parentsAssigns, dedup_mem, List.mem_filterMap]
  constructor
  · rintro ⟨x, hx, hf⟩
    refine ⟨x, hx, ?_⟩
    cases hlt : lookupTarget pres x.buffer with
    | none =>
      rw [hlt] at hf
      cases hf
    | some xsi =>
      rw [hlt] at hf
      change (if xsi ≠ si then some xsi else none) = some a at hf
      by_cases hne : xsi ≠ si
      · rw [if_pos hne] at hf
        injection hf with hf
        subst hf
        exact ⟨rfl, hne⟩
      · rw [if_neg hne] at hf
        cases hf
  · rintro ⟨x, hx, hlt, hne⟩
    refine ⟨x, hx, ?_⟩
    rw [hlt]
    show (if a ≠ si then some a else none) = some a
    rw [if_pos hne]

theorem sp_mem (pres : List ScheduleItem) (si : ScheduleItem) (pa : List ScheduleItem)
    (a : ScheduleItem) :
    a ∈ scheduledParents pres si pa ↔
      ∃ b ∈ si.inputs, lookupTarget pres b = some a ∧ a ∉ pa := by
  rw [scheduledParents, dedup_mem, List.mem_filterMap]
  constructor
  · rintro ⟨b, hb, hf⟩
    refine ⟨b, hb, ?_⟩
    cases hlt : lookupTarget pres b with
    | none =>
      rw [hlt] at hf
      cases hf
    | some xsi =>
      rw [hlt] at hf
      change (if xsi ∉ pa then some xsi else none) = some a at hf
      by_cases hnp : xsi ∉ pa
      · rw [if_pos hnp] at hf
        injection hf with hf
        subst hf
        exact ⟨rfl, hnp⟩
      · rw [if_neg hnp] at hf
        cases hf
  · rintro ⟨b, hb, hlt, hnp⟩
    refine ⟨b, hb, ?_⟩
    rw [hlt]
    show (if a ∉ pa then some a else none) = some a
    rw [if_pos hnp]

theorem edge_of_pa (pres : List ScheduleItem) (si a : ScheduleItem)
    (hsi : si ∈ pres) (ha : a ∈ parentsAssigns pres si) :
    (si, a) ∈ buildEdges pres := by
  rw [buildEdges, List.mem_flatMap]
  refine ⟨si, hsi, ?_⟩
  apply List.mem_append_left
  exact List.mem_map.mpr ⟨a, ha, rfl⟩

theorem edge_of_sp (pres : List ScheduleItem) (si x : ScheduleItem)
    (hsi : si ∈ pres) (hx : x ∈ scheduledParents pres si (parentsAssigns pres si)) :
    (x, si) ∈ buildEdges pres := by
  rw [buildEdges, List.mem_flatMap]
  refine ⟨si, hsi, ?_⟩
  apply List.mem_append_right
  exact List.mem_map.mpr ⟨x, hx, rfl⟩

theorem buildEdges_mem (pres : List ScheduleItem) :
    ∀ e ∈ buildEdges pres, e.1 ∈ pres ∧ e.2 ∈ pres := by
  intro e he
  rw [buildEdges, List.mem_flatMap] at he
  obtain ⟨si, hsi, hmem⟩ := he
  rcases List.mem_append.mp hmem with h1 | h1
  · obtain ⟨a, ha, rfl⟩ := List.mem_map.mp h1
    obtain ⟨x, _, hlt, _⟩ := (pa_mem pres si a).mp ha
    exact ⟨hsi, (lookupTarget_mem pres x.buffer a hlt).1⟩
  · obtain ⟨x, hx, rfl⟩ := List.mem_map.mp h1
    obtain ⟨b, _, hlt, _⟩ := (sp_mem pres si _ x).mp hx
    exact ⟨(lookupTarget_mem pres b x hlt).1, hsi⟩

theorem create_schedule_sorted (pres sched : List ScheduleItem)
    (hnd : pres.Nodup) (hok : create_schedule pres = .ok sched) :
    sched.Nodup ∧ (∀ v ∈ sched, v ∈ pres) ∧ (∀ v ∈ pres, v ∈ sched) ∧
    ∀ e ∈ buildEdges pres, listBefore sched e.1 e.2 := by
  have hE := buildEdges_mem pres
  have hs := kahnRun_sound pres (buildEdges pres) hnd hE
  by_cases hlen : (kahnRun pres (buildEdges pres)).length = pres.length
  · have hbe : ((kahnRun pres (buildEdges pres)).length != pres.length) = false := by
      simp [hlen]
    rw [create_schedule] at hok
    simp only [hbe, Bool.false_eq_true, if_false] at hok
    have hrun : kahnRun pres (buildEdges pres) = sched := by
      injection hok
    rw [hrun] at hs hlen
    obtain ⟨hsn, hsub, hord⟩ := hs
    have hcomp := sched_complete pres sched hnd hsn hsub hlen
    refine ⟨hsn, hsub, hcomp, ?_⟩
    intro e he
    have h2p : e.2 ∈ pres := (hE e he).2
    obtain ⟨i, hi⟩ := List.mem_iff_getElem?.mp (hcomp e.2 h2p)
    obtain ⟨j, hj, hjg⟩ := hord e he i hi
    exact ⟨j, i, hj, hjg, hi⟩
  · have hbe : ((kahnRun pres (buildEdges pres)).length != pres.length) = true := by
      simpa using hlen
    rw [create_schedule] at hok
    simp only [hbe, if_true] at hok
    cases hok

/-- Claim C2 (amended): for every schedule produced by the assembly
(duplicate-free prescheduled items, each buffer written by at most one
kernel): (1) if buffer `b` is in `K.inputs` and is an output of another
kernel `Kp`, and no assign-preload buffer of `K` is an output of `Kp`,
then `Kp` precedes `K`; (2) if `b` is in `K.assign_preloads` and
`Kp ≠ K` writes `b`, then `K` precedes `Kp`.  (Without the
assign-preload proviso, part (1) is false — see the counterexample.) -/
theorem schedule_dependency_soundness (pres sched : List ScheduleItem)
    (hnd : pres.Nodup) (huw : uniqueWriter pres)
    (hok : create_schedule pres = .ok sched) :
    ∀ K ∈ pres, ∀ Kp ∈ pres, K ≠ Kp →
      (∀ b : Buffer, b ∈ K.inputs → b ∈ Kp.outputs →
        (¬∃ x ∈ K.assign_preloads, x.buffer ∈ Kp.outputs) →
        listBefore sched Kp K) ∧
      (∀ x ∈ K.assign_preloads, x.buffer ∈ Kp.outputs → listBefore sched K Kp) := by
  obtain ⟨hsn, hsub, hcomp, hord⟩ := create_schedule_sorted pres sched hnd hok
  intro K hK Kp hKp hne
  constructor
  · intro b hin hout hnot
    have hlt : lookupTarget pres b = some Kp := lookupTarget_unique pres b Kp huw hKp hout
    have hKpnotpa : Kp ∉ parentsAssigns pres K := by
      intro hc
      obtain ⟨x, hx, hltx, _⟩ := (pa_mem pres K Kp).mp hc
      exact hnot ⟨x, hx, (lookupTarget_mem pres x.buffer Kp hltx).2⟩
    have hsp : Kp ∈ scheduledParents pres K (parentsAssigns pres K) :=
      (sp_mem pres K _ Kp).mpr ⟨b, hin, hlt, hKpnotpa⟩
    exact hord (Kp, K) (edge_of_sp pres K Kp hK hsp)
  · intro x hx hxb
    have hlt : lookupTarget pres x.buffer = some Kp :=
      lookupTarget_unique pres x.buffer Kp huw hKp hxb
    have hpa : Kp ∈ parentsAssigns pres K :=
      (pa_mem pres K Kp).mpr ⟨x, hx, hlt, Ne.symm hne⟩
    exact hord (K, Kp) (edge_of_pa pres K Kp hK hpa)

/-- Claim C2 (counterexample): `KReader` reads `bA` — an output of
`KWriter` — while also holding `bA` in its assign preloads; the
emitted schedule places `KReader` strictly before `KWriter`, so the
claim's first conjunct is false as stated. -/
theorem schedule_input_edge_reversed_for_assign :
    create_schedule [KReader, KWriter] = .ok [KReader, KWriter] ∧
    bA ∈ KReader.inputs ∧ bA ∈ KWriter.outputs ∧ KReader ≠ KWriter ∧
    ¬listBefore [KReader, KWriter] KWriter KReader := by
  refine ⟨rfl, by decide, by decide, by decide, ?_⟩
  rintro ⟨i, j, hij, hi, hj⟩
  rcases j with _ | _ | j
  · omega
  · have h1 : ([KReader, KWriter] : List ScheduleItem)[1]? = some KWriter := rfl
    rw [h1] at hj
    have h2 : KWriter = KReader := by injection hj
    exact absurd h2 (by decide)
  · have h2 : ([KReader, KWriter] : List ScheduleItem)[j + 2]? = none := rfl
    rw [h2] at hj
    cases hj

/-- Witness for claim C2: a writer kernel is scheduled before the
kernel that plainly reads its output. -/
theorem schedule_dependency_soundness_witness :
    listBefore [KWriter, KConsumer] KWriter KConsumer := by
  have h := schedule_dependency_soundness [KConsumer, KWriter] [KWriter, KConsumer]
    (by decide) (by unfold uniqueWriter; decide) rfl KConsumer (by decide) KWriter
    (by decide) (by decide)
  exact h.1 bA (by decide) (by decide) (by decide)

/-- Claim C1: determinism of the scheduler entry point — two
invocations on the same input produce element-wise equal schedules
(same kernel count, same items in the same order, hence equal asts and
ordered bufs per item) and equal `var_vals`.  The embedding is a pure
function of its input, mirroring the source, whose state lives in
insertion-ordered dicts and a FIFO queue with no order-sensitive set
iteration. -/
theorem create_schedule_with_vars_deterministic (pres : List ScheduleItem)
    (vv : List (Nat × Int)) (s1 s2 : List ScheduleItem) (v1 v2 : List (Nat × Int))
    (h1 : create_schedule_with_vars pres vv = .ok (s1, v1))
    (h2 : create_schedule_with_vars pres vv = .ok (s2, v2)) :
    s1.length = s2.length ∧ (∀ i : Nat, s1[i]? = s2[i]?) ∧
    (∀ i : Nat, (s1[i]?).map ScheduleItem.ast = (s2[i]?).map ScheduleItem.ast) ∧
    (∀ i : Nat, (s1[i]?).map ScheduleItem.bufs = (s2[i]?).map ScheduleItem.bufs) ∧
    (∀ i : Nat, (s1[i]?).map ScheduleItem.assign_preloads =
      (s2[i]?).map ScheduleItem.assign_preloads) ∧
    v1 = v2 := by
  have h := h1.symm.trans h2
  have hp : (s1, v1) = (s2, v2) := by
    injection h
  have hs : s1 = s2 := congrArg Prod.fst hp
  have hv : v1 = v2 := congrArg Prod.snd hp
  subst hs
  exact ⟨rfl, fun _ => rfl, fun _ => rfl, fun _ => rfl, fun _ => rfl, hv⟩

/-- Witness for claim C1: two runs on a concrete one-kernel input agree
element-wise. -/
theorem create_schedule_with_vars_deterministic_witness :
    ([KWriter] : List ScheduleItem).length = ([KWriter] : List ScheduleItem).length ∧
    (([KWriter] : List ScheduleItem)[0]? = ([KWriter] : List ScheduleItem)[0]?) ∧
    ([(0, 3)] : List (Nat × Int)) = [(0, 3)] := by
  have h := create_schedule_with_vars_deterministic [KWriter] [(0, 3)]
    [KWriter] [KWriter] [(0, 3)] [(0, 3)] rfl rfl
  exact ⟨h.1, h.2.1 0, h.2.2.2.2.2⟩
